import Mathlib

/-
  Verification development for the stereoscope filetree core
  (pkg/filetree/filetree.go).

  Paths are modelled as lists of segments of an absolute path:
  [] is the root "/", ["a","b"] is "/a/b".  The helper packages
  (file.Path operations, filenode, the generic tree substrate and the
  link-resolution strategy type) are not part of the given source file;
  they are modelled from the spec where noted.  All functions of
  filetree.go itself are translated directly from the source.

  The Go resolver functions resolveAncestorLinks / resolveNodeLinks are
  mutually recursive with no structural termination argument, so the
  embedding threads an explicit fuel counter; exhausting the fuel yields
  the distinguished error FTErr.fuelOut, which the real program can
  never produce (it would instead fail to terminate).
-/

namespace Stereoscope

/-- Modelled from the spec (PathOps): a path is a normalized absolute
path represented by its list of segments; the empty list is the root. -/
abbrev Path := List String

/-- One normalization step: skip empty and "." segments, resolve ".."
against the accumulated path (clamping at the root), append anything
else. -/
def cleanStep (acc : Path) (s : String) : Path :=
  if s = "" ∨ s = "." then acc
  else if s = ".." then acc.dropLast
  else acc ++ [s]

/-- Modelled from the spec (PathOps): normalization collapses "." and ".."
segments and empty segments of an absolute path, clamping ".." at the
root (the semantics of filepath.Clean on an absolute path). -/
def cleanAbs (segs : List String) : Path :=
  segs.foldl cleanStep []

/-- Modelled from the spec: a link target may be absolute or relative and
may contain "." and ".." segments; it is stored verbatim. -/
structure LinkTarget where
  absolute : Bool
  segs : List String
deriving DecidableEq, Repr

/-- Modelled from the spec (Node kinds): Directory, RegularFile,
SymbolicLink, HardLink, with the names used by the source. -/
inductive FileType where
  | TypeReg
  | TypeDir
  | TypeSymlink
  | TypeHardLink
deriving DecidableEq, Repr

/-- Modelled from the spec: an opaque reference handle produced by the
reference factory; it records a fresh identifier and the real path it
was created for.  The core only nil-checks and returns it. -/
structure Reference where
  id : Nat
  path : Path
deriving DecidableEq, Repr

/-- Modelled from the spec (Node attributes): kind, real (canonical)
path, optional link target, optional reference handle.  The spec fixes
real_path to be normalized, so the constructors below normalize. -/
structure FileNode where
  realPath : Path
  fileType : FileType
  linkPath : Option LinkTarget
  reference : Option Reference
deriving DecidableEq, Repr

def FileNode.isLink (n : FileNode) : Bool :=
  match n.fileType with
  | .TypeSymlink => true
  | .TypeHardLink => true
  | _ => false

/-- Modelled from the spec: filenode.NewDir. -/
def NewDir (p : Path) (r : Option Reference) : FileNode :=
  { realPath := cleanAbs p, fileType := .TypeDir, linkPath := none, reference := r }

/-- Modelled from the spec: filenode.NewFile. -/
def NewFile (p : Path) (r : Option Reference) : FileNode :=
  { realPath := cleanAbs p, fileType := .TypeReg, linkPath := none, reference := r }

/-- Modelled from the spec: filenode.NewSymLink. -/
def NewSymLink (p : Path) (tgt : LinkTarget) (r : Option Reference) : FileNode :=
  { realPath := cleanAbs p, fileType := .TypeSymlink, linkPath := some tgt, reference := r }

/-- Modelled from the spec: filenode.NewHardLink. -/
def NewHardLink (p : Path) (tgt : LinkTarget) (r : Option Reference) : FileNode :=
  { realPath := cleanAbs p, fileType := .TypeHardLink, linkPath := some tgt, reference := r }

/-- Modelled from the spec (Tree Store): a keyed container mapping
canonical-path identity to a node.  Parent-to-children adjacency is
derived from the keys, which is faithful because every insertion goes
under the node at parent(real_path).  nextId is the state of the
reference factory. -/
structure FileTree where
  nodes : List FileNode
  nextId : Nat
deriving DecidableEq, Repr

/-- NewFileTree creates a new FileTree instance with a root directory. -/
def NewFileTree : FileTree :=
  { nodes := [NewDir [] none], nextId := 0 }

/-- Modelled from the spec (Tree Store get): O(1) lookup by canonical
path identity (filenode.IDByPath normalizes the key). -/
def treeNode (t : FileTree) (p : Path) : Option FileNode :=
  t.nodes.find? (fun n => n.realPath == cleanAbs p)

/-- Modelled from the spec: the reference factory; returns a fresh
handle for the given real path and the advanced factory state. -/
def mkFileReference (t : FileTree) (p : Path) : FileTree × Reference :=
  ({ nodes := t.nodes, nextId := t.nextId + 1 }, { id := t.nextId, path := cleanAbs p })

/-- Modelled from the spec (Resolver inputs): the three independent
strategy booleans. -/
structure linkResolutionStrategy where
  FollowAncestorLinks : Bool := false
  FollowBasenameLinks : Bool := false
  DoNotFollowDeadBasenameLinks : Bool := false
deriving DecidableEq, Repr

def linkResolutionStrategy.FollowLinks (s : linkResolutionStrategy) : Bool :=
  s.FollowAncestorLinks || s.FollowBasenameLinks

/-- Errors of the core, as an inductive in place of Go error values.
fuelOut is an artifact of the embedding marking non-termination of the
modelled recursion. -/
inductive FTErr where
  | linkCycleDetected
  | removingRoot
  | kindMismatch (p : Path)
  | missingParent (p : Path)
  | parentOfRoot
  | fuelOut
deriving DecidableEq, Repr

/-- Modelled from the spec (PathOps): ParentPath fails on the root. -/
def ParentPath (p : Path) : Except FTErr Path :=
  if p = [] then .error .parentOfRoot else .ok p.dropLast

/-- The next path followed from a link node (filetree.go lines
278-288): an absolute target is used blindly, a relative target is
joined to the link's own parent directory; an absent target behaves
like the Go zero value, the empty relative path. -/
def nextLinkPath (cn : FileNode) : List String :=
  match cn.linkPath with
  | some tgt => if tgt.absolute then tgt.segs else cn.realPath.dropLast ++ tgt.segs
  | none => cn.realPath.dropLast

mutual

/-- resolveAncestorLinks: return the FileNode of the basename in the
given path, resolving links at every constituent segment but never at
or past the basename (filetree.go lines 184-240).  The path is
normalized on entry, matching strings.Split of path.Normalize(). -/
def resolveAncestorLinks (t : FileTree) : Nat → List String → Except FTErr (Path × Option FileNode)
  | 0, _ => .error .fuelOut
  | fuel + 1, p => ancestorGo t fuel (cleanAbs p) [] none

/-- Loop body of resolveAncestorLinks over the remaining path parts;
acc is the accumulated current path, curr the current node. -/
def ancestorGo (t : FileTree) : Nat → List String → Path → Option FileNode → Except FTErr (Path × Option FileNode)
  | 0, _, _, _ => .error .fuelOut
  | _ + 1, [], acc, curr => .ok (acc, curr)
  | fuel + 1, part :: rest, acc, _ =>
    let currentPath := acc ++ [part]
    match treeNode t currentPath with
    | none => .ok (currentPath, none)
    | some n =>
      if n.reference = none then
        ancestorGo t fuel rest currentPath (some n)
      else if rest ≠ [] ∧ n.isLink then
        match resolveNodeLinks t fuel n true with
        | .error e => .error e
        | .ok (rp, rn) => ancestorGo t fuel rest rp rn
      else
        ancestorGo t fuel rest currentPath (some n)

/-- resolveNodeLinks: resolve all links at the base of the real path of
the given node, with per-call cycle detection (filetree.go lines
244-312). -/
def resolveNodeLinks (t : FileTree) : Nat → FileNode → Bool → Except FTErr (Path × Option FileNode)
  | 0, _, _ => .error .fuelOut
  | fuel + 1, n, followDead => nodeLinksGo t fuel followDead [] [] none n.realPath (some n)

/-- The for-loop of resolveNodeLinks: seen is the alreadySeen set,
lastPath/lastNode preserve the previous link for the dead-link policy,
currentPath/currentNode are the loop state.  The Go check for an empty
next path cannot fire in this path representation (joining a parent
directory of an absolute real path with any target is never the empty
string) and is omitted. -/
def nodeLinksGo (t : FileTree) : Nat → Bool → List Path → Path → Option FileNode → Path → Option FileNode → Except FTErr (Path × Option FileNode)
  | 0, _, _, _, _, _, _ => .error .fuelOut
  | fuel + 1, followDead, seen, lastPath, lastNode, currentPath, currentNode =>
    match currentNode with
    | none =>
      if followDead then .ok (currentPath, none) else .ok (lastPath, lastNode)
    | some cn =>
      if currentPath ∈ seen then .error .linkCycleDetected
      else if ¬ cn.isLink then .ok (currentPath, some cn)
      else
        match resolveAncestorLinks t fuel (nextLinkPath cn) with
        | .error e => .error e
        | .ok (p2, n2) => nodeLinksGo t fuel followDead (currentPath :: seen) currentPath (some cn) p2 n2

end

/-- node: the strategy dispatcher (filetree.go lines 148-181). -/
def node (t : FileTree) (fuel : Nat) (p : Path) (strategy : linkResolutionStrategy) : Except FTErr (Path × Option FileNode) :=
  if ¬ strategy.FollowLinks then .ok (p, treeNode t p)
  else
    match
      (if strategy.FollowAncestorLinks then resolveAncestorLinks t fuel p
       else .ok (p, treeNode t p)) with
    | .error e => .error e
    | .ok (currentPath, currentNode) =>
      match currentNode with
      | none => .ok (currentPath, none)
      | some cn =>
        if strategy.FollowBasenameLinks then
          resolveNodeLinks t fuel cn (¬ strategy.DoNotFollowDeadBasenameLinks)
        else .ok (currentPath, some cn)

/-- Modelled from the spec (Query API): the user-facing link resolution
options accepted by File. -/
inductive LinkResolutionOption where
  | FollowBasenameLinks
  | DoNotFollowDeadBasenameLinks
deriving DecidableEq, Repr

/-- Modelled from the spec: newLinkResolutionStrategy folds the option
list into a strategy value. -/
def newLinkResolutionStrategy (opts : List LinkResolutionOption) : linkResolutionStrategy :=
  { FollowBasenameLinks := opts.contains .FollowBasenameLinks,
    DoNotFollowDeadBasenameLinks := opts.contains .DoNotFollowDeadBasenameLinks }

/-- Second phase of File: symlink resolution with the strategy derived
from the user options (filetree.go lines 137-145). -/
def fileResolved (t : FileTree) (fuel : Nat) (p : Path) (us : linkResolutionStrategy) : Except FTErr (Bool × Option Reference) :=
  match node t fuel p
      { FollowAncestorLinks := true,
        FollowBasenameLinks := us.FollowBasenameLinks,
        DoNotFollowDeadBasenameLinks := us.DoNotFollowDeadBasenameLinks } with
  | .error e => .error e
  | .ok (_, some cn) => .ok (true, cn.reference)
  | .ok (_, none) => .ok (false, none)

/-- File fetches a file Reference for the given path (filetree.go lines
106-146): first a direct lookup; if it finds a non-link node, or a link
while basename following is off, return it; otherwise fall back to full
symlink resolution. -/
def File (t : FileTree) (fuel : Nat) (p : Path) (opts : List LinkResolutionOption) : Except FTErr (Bool × Option Reference) :=
  let userStrategy := newLinkResolutionStrategy opts
  match node t fuel p {} with
  | .error e => .error e
  | .ok (_, some cn) =>
    if ¬ cn.isLink || (cn.isLink && ¬ userStrategy.FollowBasenameLinks) then
      .ok (true, cn.reference)
    else fileResolved t fuel p userStrategy
  | .ok (_, none) => fileResolved t fuel p userStrategy

/-- HasPath indicates if the given path is in the file tree
(filetree.go lines 653-659): any resolution error is reported as the
path not existing. -/
def HasPath (t : FileTree) (fuel : Nat) (p : Path) : Bool :=
  match File t fuel p [.FollowBasenameLinks] with
  | .error _ => false
  | .ok (e, _) => e

/-- Modelled from the spec (Tree Store replace): swap the node with the
same key, preserving children and parent linkage. -/
def replaceNode (t : FileTree) (fn : FileNode) : FileTree :=
  { nodes := t.nodes.map (fun m => if m.realPath == fn.realPath then fn else m),
    nextId := t.nextId }

/-- Modelled from the spec (Tree Store add_child): insert the node; the
caller has already checked the key is absent and the parent present. -/
def addChildNode (t : FileTree) (fn : FileNode) : FileTree :=
  { nodes := t.nodes ++ [fn], nextId := t.nextId }

/-- setFileNode adds the given node to the tree (filetree.go lines
531-554): replace in place when the key exists, otherwise insert under
the node at the parent path, failing when that parent is missing. -/
def setFileNode (t : FileTree) (fn : FileNode) : Except FTErr FileTree :=
  match treeNode t fn.realPath with
  | some _ => .ok (replaceNode t fn)
  | none =>
    match ParentPath fn.realPath with
    | .error e => .error e
    | .ok parentPath =>
      match treeNode t parentPath with
      | none => .error (.missingParent fn.realPath)
      | some _ => .ok (addChildNode t fn)

/-- Modelled from the spec (PathOps): ConstituentPaths of "/a/b/c" is
the root-first list "/", "/a", "/a/b", "/a/b/c"; on segment lists these
are exactly the prefixes. -/
def ConstituentPaths (p : Path) : List Path :=
  p.inits

/-- The deepest-first scan of addParentPaths (filetree.go lines
505-516): collect paths while they are missing, stopping at the first
existing one. -/
def collectMissing (t : FileTree) : List Path → List Path
  | [] => []
  | q :: rest =>
    match treeNode t q with
    | some _ => []
    | none => q :: collectMissing t rest

/-- The insertion loop of addParentPaths (filetree.go lines 520-525):
add each collected path as an implicit directory, shallowest first. -/
def addPathsInOrder (t : FileTree) : List Path → Except FTErr FileTree
  | [] => .ok t
  | q :: rest =>
    match setFileNode t (NewDir q none) with
    | .error e => .error e
    | .ok t' => addPathsInOrder t' rest

/-- addParentPaths adds all missing constituent paths of the given real
path as implicit directories without references (filetree.go lines
491-528); a no-op when the direct parent already exists. -/
def addParentPaths (t : FileTree) (realPath : Path) : Except FTErr FileTree :=
  match ParentPath (cleanAbs realPath) with
  | .error e => .error e
  | .ok parentPath =>
    match treeNode t parentPath with
    | some _ => .ok t
    | none =>
      let pathsToAdd := collectMissing t (ConstituentPaths (cleanAbs realPath)).reverse
      addPathsInOrder t pathsToAdd.reverse

/-- AddFile adds a new path representing a regular file (filetree.go
lines 374-397); the lookup with the empty strategy is a direct key
lookup. -/
def AddFile (t : FileTree) (realPath : Path) : Except FTErr (FileTree × Reference) :=
  match treeNode t realPath with
  | some fn =>
    if fn.fileType ≠ .TypeReg then .error (.kindMismatch (cleanAbs realPath))
    else
      match fn.reference with
      | some r => .ok (t, r)
      | none =>
        let (t', r) := mkFileReference t realPath
        .ok (replaceNode t' { fn with reference := some r }, r)
  | none =>
    match addParentPaths t realPath with
    | .error e => .error e
    | .ok t' =>
      let (t'', r) := mkFileReference t' realPath
      match setFileNode t'' (NewFile realPath (some r)) with
      | .error e => .error e
      | .ok t3 => .ok (t3, r)

/-- AddSymLink adds a new path representing a symlink (filetree.go
lines 402-425). -/
def AddSymLink (t : FileTree) (realPath : Path) (linkPath : LinkTarget) : Except FTErr (FileTree × Reference) :=
  match treeNode t realPath with
  | some fn =>
    if fn.fileType ≠ .TypeSymlink then .error (.kindMismatch (cleanAbs realPath))
    else
      match fn.reference with
      | some r => .ok (t, r)
      | none =>
        let (t', r) := mkFileReference t realPath
        .ok (replaceNode t' { fn with reference := some r }, r)
  | none =>
    match addParentPaths t realPath with
    | .error e => .error e
    | .ok t' =>
      let (t'', r) := mkFileReference t' realPath
      match setFileNode t'' (NewSymLink realPath linkPath (some r)) with
      | .error e => .error e
      | .ok t3 => .ok (t3, r)

/-- AddHardLink adds a new path representing a hard link (filetree.go
lines 430-455). -/
def AddHardLink (t : FileTree) (realPath : Path) (linkPath : LinkTarget) : Except FTErr (FileTree × Reference) :=
  match treeNode t realPath with
  | some fn =>
    if fn.fileType ≠ .TypeHardLink then .error (.kindMismatch (cleanAbs realPath))
    else
      match fn.reference with
      | some r => .ok (t, r)
      | none =>
        let (t', r) := mkFileReference t realPath
        .ok (replaceNode t' { fn with reference := some r }, r)
  | none =>
    match addParentPaths t realPath with
    | .error e => .error e
    | .ok t' =>
      let (t'', r) := mkFileReference t' realPath
      match setFileNode t'' (NewHardLink realPath linkPath (some r)) with
      | .error e => .error e
      | .ok t3 => .ok (t3, r)

/-- AddDir adds a new path representing a directory (filetree.go lines
461-485). -/
def AddDir (t : FileTree) (realPath : Path) : Except FTErr (FileTree × Reference) :=
  match treeNode t realPath with
  | some fn =>
    if fn.fileType ≠ .TypeDir then .error (.kindMismatch (cleanAbs realPath))
    else
      match fn.reference with
      | some r => .ok (t, r)
      | none =>
        let (t', r) := mkFileReference t realPath
        .ok (replaceNode t' { fn with reference := some r }, r)
  | none =>
    match addParentPaths t realPath with
    | .error e => .error e
    | .ok t' =>
      let (t'', r) := mkFileReference t' realPath
      match setFileNode t'' (NewDir realPath (some r)) with
      | .error e => .error e
      | .ok t3 => .ok (t3, r)

/-- Modelled from the spec (Tree Store remove_subtree): detach the node
and all of its descendants; fails on the root. -/
def removeSubtree (t : FileTree) (fn : FileNode) : Except FTErr FileTree :=
  if fn.realPath = [] then .error .removingRoot
  else .ok { nodes := t.nodes.filter (fun m => ¬ fn.realPath.isPrefixOf m.realPath),
             nextId := t.nextId }

/-- RemovePath deletes the node at the given path together with its
subtree (filetree.go lines 559-580): the root is rejected, resolution
follows ancestor links but not the basename link, and an absent path is
a no-op. -/
def RemovePath (t : FileTree) (fuel : Nat) (p : Path) : Except FTErr FileTree :=
  if cleanAbs p = [] then .error .removingRoot
  else
    match node t fuel p { FollowAncestorLinks := true, FollowBasenameLinks := false } with
    | .error e => .error e
    | .ok (_, none) => .ok t
    | .ok (_, some fn) => removeSubtree t fn

/-- Modelled from the spec (Tree Store children): the direct children
of a node, derived from the keys. -/
def childrenOf (t : FileTree) (fn : FileNode) : List FileNode :=
  t.nodes.filter (fun m => !m.realPath.isEmpty && m.realPath.dropLast == fn.realPath)

/-- The removal loop of RemoveChildPaths over the child list. -/
def removeSubtrees (t : FileTree) : List FileNode → Except FTErr FileTree
  | [] => .ok t
  | c :: rest =>
    match removeSubtree t c with
    | .error e => .error e
    | .ok t' => removeSubtrees t' rest

/-- RemoveChildPaths deletes all children of the given path, following
links both in ancestors and at the basename (filetree.go lines
585-604). -/
def RemoveChildPaths (t : FileTree) (fuel : Nat) (p : Path) : Except FTErr FileTree :=
  match node t fuel p { FollowAncestorLinks := true, FollowBasenameLinks := true } with
  | .error e => .error e
  | .ok (_, none) => .ok t
  | .ok (_, some fn) => removeSubtrees t (childrenOf t fn)

/-- Modelled from the spec (whiteout convention): the fixed whiteout
basename marker. -/
def whiteoutMarker : List Char := ['.', 'w', 'h', '.']

/-- Modelled from the spec: the fixed opaque-whiteout sentinel basename. -/
def OpaqueWhiteout : String := ".wh..wh..opq"

def basename (p : Path) : String :=
  (p.getLast?).getD ""

/-- Modelled from the spec: a path whose basename begins with the
whiteout marker marks deletion of the sibling with the marker stripped. -/
def IsWhiteout (p : Path) : Bool :=
  whiteoutMarker.isPrefixOf (basename p).toList

/-- Modelled from the spec: a path whose basename equals the opaque
sentinel marks its parent directory opaque. -/
def IsDirWhiteout (p : Path) : Bool :=
  basename p == OpaqueWhiteout

/-- Modelled from the spec: UnWhiteoutPath strips the whiteout marker
from the basename to recover the target sibling path. -/
def UnWhiteoutPath (p : Path) : Path :=
  p.dropLast ++ [String.mk ((basename p).toList.drop whiteoutMarker.length)]

/-- hasOpaqueDirectory (filetree.go lines 767-770). -/
def hasOpaqueDirectory (t : FileTree) (fuel : Nat) (directoryPath : Path) : Bool :=
  HasPath t fuel (directoryPath ++ [OpaqueWhiteout])

/-- The merge visitor (filetree.go lines 705-759): process an opaque
directory first, handle whiteout markers by removing the unwhiteout
path from the lower tree, otherwise graft a copy of the upper node,
inheriting the lower reference when the upper layer re-describes the
same kind of file without attaching content. -/
def mergeVisit (t upper : FileTree) (fuel : Nat) (upperNode : FileNode) : Except FTErr FileTree :=
  match (if hasOpaqueDirectory upper fuel upperNode.realPath
         then RemoveChildPaths t fuel upperNode.realPath
         else .ok t) with
  | .error e => .error e
  | .ok t1 =>
    if IsWhiteout upperNode.realPath then
      RemovePath t1 fuel (UnWhiteoutPath upperNode.realPath)
    else
      match treeNode t1 upperNode.realPath with
      | originalNode =>
        match (if originalNode = none then addParentPaths t1 upperNode.realPath else .ok t1) with
        | .error e => .error e
        | .ok t2 =>
          let nodeCopy :=
            match originalNode with
            | some orig =>
              if orig.reference.isSome ∧ upperNode.reference = none ∧ upperNode.fileType = orig.fileType
              then { upperNode with reference := orig.reference }
              else upperNode
            | none => upperNode
          setFileNode t2 nodeCopy

mutual

/-- Modelled from the spec (tree substrate walker): depth-first
traversal from a node, with the merge conditions inlined: nodes whose
path is the opaque sentinel are not visited, and branches below
whiteout paths are not descended into (filetree.go lines 694-703). -/
def walkNode (upper : FileTree) (v : FileTree → FileNode → Except FTErr FileTree) : Nat → FileTree → FileNode → Except FTErr FileTree
  | 0, _, _ => .error .fuelOut
  | fuel + 1, st, n =>
    match (if ¬ IsDirWhiteout n.realPath then v st n else .ok st) with
    | .error e => .error e
    | .ok st1 =>
      if ¬ IsWhiteout n.realPath then walkList upper v fuel st1 (childrenOf upper n)
      else .ok st1

/-- Children traversal of the walker, in insertion order. -/
def walkList (upper : FileTree) (v : FileTree → FileNode → Except FTErr FileTree) : Nat → FileTree → List FileNode → Except FTErr FileTree
  | 0, _, _ => .error .fuelOut
  | _ + 1, st, [] => .ok st
  | fuel + 1, st, c :: rest =>
    match walkNode upper v fuel st c with
    | .error e => .error e
    | .ok st' => walkList upper v fuel st' rest

end

/-- merge combines the upper tree into the lower tree t (filetree.go
lines 693-765), walking the upper tree depth-first from its root. -/
def merge (t upper : FileTree) (fuel : Nat) : Except FTErr FileTree :=
  match treeNode upper [] with
  | none => .ok t
  | some root => walkNode upper (fun st n => mergeVisit st upper fuel n) fuel t root

/-- The real paths of all nodes of a tree. -/
def realPaths (t : FileTree) : List Path :=
  t.nodes.map (fun n => n.realPath)

/-- The root node is present. -/
def rootPresent (t : FileTree) : Prop :=
  [] ∈ realPaths t

/-- Every non-root node has a parent node whose real path is the parent
of the node's real path. -/
def parentPresent (t : FileTree) : Prop :=
  ∀ p ∈ realPaths t, p ≠ [] → p.dropLast ∈ realPaths t

/-- The structural tree invariant used for the mutation-sequence
proofs. -/
def treeInv (t : FileTree) : Prop :=
  rootPresent t ∧ parentPresent t

/-- One operation of the Mutation API, as used when reasoning about
arbitrary operation sequences; removal operations carry the fuel of the
embedding. -/
inductive FTOp where
  | addFile (p : Path)
  | addDir (p : Path)
  | addSymLink (p : Path) (tgt : LinkTarget)
  | addHardLink (p : Path) (tgt : LinkTarget)
  | removePath (fuel : Nat) (p : Path)
  | removeChildPaths (fuel : Nat) (p : Path)
deriving DecidableEq, Repr

/-- Apply a mutation; a failed call leaves the tree unchanged (no
operation of the embedding mutates the tree before failing). -/
def applyOp (t : FileTree) : FTOp → FileTree
  | .addFile p => match AddFile t p with | .ok (t', _) => t' | .error _ => t
  | .addDir p => match AddDir t p with | .ok (t', _) => t' | .error _ => t
  | .addSymLink p tgt => match AddSymLink t p tgt with | .ok (t', _) => t' | .error _ => t
  | .addHardLink p tgt => match AddHardLink t p tgt with | .ok (t', _) => t' | .error _ => t
  | .removePath fuel p => match RemovePath t fuel p with | .ok t' => t' | .error _ => t
  | .removeChildPaths fuel p => match RemoveChildPaths t fuel p with | .ok t' => t' | .error _ => t

/-- Apply a sequence of mutations to a tree, left to right. -/
def applyOps (t : FileTree) (ops : List FTOp) : FileTree :=
  ops.foldl applyOp t

/-- A tree holding only a dangling symlink: AddSymLink("/a", "/b") on a
fresh tree, with no node at "/b". -/
def exTreeDeadLink : FileTree :=
  applyOps NewFileTree [.addSymLink ["a"] ⟨true, ["b"]⟩]

/-- A tree with a two-link cycle: "/a" points to "/b" and "/b" points
back to "/a". -/
def exTreeCycle2 : FileTree :=
  applyOps NewFileTree [.addSymLink ["a"] ⟨true, ["b"]⟩, .addSymLink ["b"] ⟨true, ["a"]⟩]

/-- A tree with a cycle through intermediate (ancestor) link segments:
"/a" points to "/b/x" and "/b" points to "/a/y". -/
def exTreeAncCycle : FileTree :=
  applyOps NewFileTree [.addSymLink ["a"] ⟨true, ["b","x"]⟩, .addSymLink ["b"] ⟨true, ["a","y"]⟩]

/-- The symlink node stored at "/a" in exTreeAncCycle. -/
def exAncCycleNodeA : FileNode :=
  { realPath := ["a"], fileType := .TypeSymlink,
    linkPath := some ⟨true, ["b","x"]⟩, reference := some ⟨0, ["a"]⟩ }

/-- The symlink node stored at "/b" in exTreeAncCycle. -/
def exAncCycleNodeB : FileNode :=
  { realPath := ["b"], fileType := .TypeSymlink,
    linkPath := some ⟨true, ["a","y"]⟩, reference := some ⟨1, ["b"]⟩ }

/-- AddFile("/a") followed by AddFile("/a/b"): the parent of "/a/b" is
a regular file, not a directory. -/
def exTreeFileUnderFile : FileTree :=
  applyOps NewFileTree [.addFile ["a"], .addFile ["a","b"]]

/-- A regular file at "/b" with a symlink "/a" pointing at it. -/
def exTreeLinkAndTarget : FileTree :=
  applyOps NewFileTree [.addFile ["b"], .addSymLink ["a"] ⟨true, ["b"]⟩]

/-- Lower tree of the whiteout merge scenario: holds "/etc/passwd". -/
def exLowerWhiteout : FileTree :=
  applyOps NewFileTree [.addFile ["etc","passwd"]]

/-- Upper tree of the whiteout merge scenario: holds the whiteout
marker "/etc/.wh.passwd". -/
def exUpperWhiteout : FileTree :=
  applyOps NewFileTree [.addFile ["etc",".wh.passwd"]]

/-- Lower tree of the reference-inheritance scenario: "/d" added
explicitly as a directory, so it carries a reference. -/
def exLowerInherit : FileTree :=
  applyOps NewFileTree [.addDir ["d"]]

/-- Upper tree of the reference-inheritance scenario: "/d" exists only
as an implicit ancestor of "/d/x", so it carries no reference. -/
def exUpperInherit : FileTree :=
  applyOps NewFileTree [.addFile ["d","x"]]

end Stereoscope

deriving instance DecidableEq for Except

namespace Stereoscope

/-- A segment that survives normalization verbatim. -/
def segOK (s : String) : Prop :=
  s ≠ "" ∧ s ≠ "." ∧ s ≠ ".."

instance (s : String) : Decidable (segOK s) :=
  decidable_of_iff (s ≠ "" ∧ s ≠ "." ∧ s ≠ "..") Iff.rfl

theorem segOK_append {acc : Path} {s : String} (ha : ∀ x ∈ acc, segOK x) (hs : segOK s) :
    ∀ x ∈ acc ++ [s], segOK x := by
  intro x hx
  rcases List.mem_append.mp hx with h | h
  · exact ha x h
  · simp only [List.mem_singleton] at h
    subst h
    exact hs

theorem cleanStep_ok (acc : Path) (s : String) (h : segOK s) :
    cleanStep acc s = acc ++ [s] := by
  simp [cleanStep, h.1, h.2.1, h.2.2]

theorem foldl_cleanStep_ok (l : List String) :
    ∀ acc : Path, (∀ s ∈ l, segOK s) → l.foldl cleanStep acc = acc ++ l := by
  induction l with
  | nil => intro acc _; simp
  | cons x xs ih =>
    intro acc h
    rw [List.foldl_cons, cleanStep_ok acc x (h x (by simp)),
      ih (acc ++ [x]) (fun s hs => h s (by simp [hs]))]
    simp

theorem segOK_foldl (l : List String) :
    ∀ acc : Path, (∀ s ∈ acc, segOK s) → ∀ s ∈ l.foldl cleanStep acc, segOK s := by
  induction l with
  | nil => intro acc h; simpa using h
  | cons x xs ih =>
    intro acc h
    rw [List.foldl_cons]
    apply ih
    intro s hs
    unfold cleanStep at hs
    split at hs
    · exact h s hs
    · split at hs
      · exact h s (List.dropLast_subset acc hs)
      · rcases List.mem_append.mp hs with h1 | h2
        · exact h s h1
        · rename_i hcond1 hcond2
          simp only [List.mem_singleton] at h2
          subst h2
          refine ⟨?_, ?_, hcond2⟩
          · intro he; exact hcond1 (Or.inl he)
          · intro he; exact hcond1 (Or.inr he)

theorem segOK_cleanAbs {p : List String} : ∀ s ∈ cleanAbs p, segOK s :=
  segOK_foldl p [] (by simp)

theorem cleanAbs_of_ok {p : List String} (h : ∀ s ∈ p, segOK s) : cleanAbs p = p := by
  unfold cleanAbs
  rw [foldl_cleanStep_ok p [] h]
  simp

theorem cleanAbs_idem (p : List String) : cleanAbs (cleanAbs p) = cleanAbs p :=
  cleanAbs_of_ok segOK_cleanAbs

theorem segOK_of_take {p : Path} {k : Nat} (h : ∀ s ∈ p, segOK s) :
    ∀ s ∈ p.take k, segOK s :=
  fun s hs => h s (List.take_subset k p hs)

theorem segOK_of_dropLast {p : Path} (h : ∀ s ∈ p, segOK s) :
    ∀ s ∈ p.dropLast, segOK s :=
  fun s hs => h s (List.dropLast_subset p hs)

theorem treeNode_some_realPath {t : FileTree} {p : Path} {m : FileNode}
    (h : treeNode t p = some m) : m.realPath = cleanAbs p := by
  have := List.find?_some h
  simpa using this

theorem treeNode_mem {t : FileTree} {p : Path} {m : FileNode}
    (h : treeNode t p = some m) : m ∈ t.nodes :=
  List.mem_of_find?_eq_some h

theorem treeNode_congr {t : FileTree} {p q : Path} (h : cleanAbs p = cleanAbs q) :
    treeNode t p = treeNode t q := by
  unfold treeNode
  rw [h]

theorem treeNode_isSome_iff {t : FileTree} {p : Path} :
    (treeNode t p).isSome ↔ ∃ m ∈ t.nodes, m.realPath = cleanAbs p := by
  unfold treeNode
  rw [List.find?_isSome]
  simp

theorem find?_map_replace (key : Path) (g : FileNode) :
    ∀ (l : List FileNode) (m : FileNode),
      l.find? (fun n => n.realPath == key) = some m → g.realPath = m.realPath →
      (l.map (fun n => if n.realPath == g.realPath then g else n)).find?
        (fun n => n.realPath == key) = some g := by
  intro l
  induction l with
  | nil => intro m h; simp at h
  | cons a l ih =>
    intro m h hg
    cases hpa : (a.realPath == key) with
    | true =>
      simp only [List.find?_cons, hpa] at h
      have ham : a = m := by injection h
      subst ham
      have hga : (a.realPath == g.realPath) = true := by simp [hg]
      have hgk : (g.realPath == key) = true := by
        have hge : g.realPath = a.realPath := hg
        rw [hge]; exact hpa
      simp only [List.map_cons, if_pos hga, List.find?_cons, hgk]
    | false =>
      simp only [List.find?_cons, hpa] at h
      have hmk : (m.realPath == key) = true := by
        have := List.find?_some h
        simpa using this
      have hga : ¬ ((a.realPath == g.realPath) = true) := by
        intro he
        have : (a.realPath == key) = true := by rw [eq_of_beq he, hg]; exact hmk
        rw [this] at hpa
        exact Bool.noConfusion hpa
      rw [List.map_cons, if_neg hga]
      simp only [List.find?_cons, hpa]
      exact ih m h hg

theorem find?_map_replace_other (key : Path) (g : FileNode)
    (hne : (g.realPath == key) = false) :
    ∀ l : List FileNode,
      (l.map (fun n => if n.realPath == g.realPath then g else n)).find?
        (fun n => n.realPath == key) = l.find? (fun n => n.realPath == key) := by
  intro l
  induction l with
  | nil => simp
  | cons a l ih =>
    rw [List.map_cons]
    by_cases ha : (a.realPath == g.realPath) = true
    · rw [if_pos ha]
      have hak : (a.realPath == key) = false := by
        rw [beq_eq_false_iff_ne] at hne ⊢
        intro he
        exact hne ((eq_of_beq ha).symm.trans he)
      simp only [List.find?_cons, hak, hne]
      exact ih
    · rw [if_neg ha]
      cases hak : (a.realPath == key) with
      | true => simp only [List.find?_cons, hak]
      | false =>
        simp only [List.find?_cons, hak]
        exact ih

theorem find?_append_single (p : FileNode → Bool) (x : FileNode) (l : List FileNode) :
    (l ++ [x]).find? p = ((l.find? p).or (if p x then some x else none)) := by
  rw [List.find?_append]
  congr 1
  cases hx : p x with
  | true => simp [List.find?_cons, hx]
  | false => simp [List.find?_cons, hx]

theorem treeNode_replaceNode_self {t : FileTree} {p : Path} {g m : FileNode}
    (h : treeNode t p = some m) (hg : g.realPath = m.realPath) :
    treeNode (replaceNode t g) p = some g :=
  find?_map_replace (cleanAbs p) g t.nodes m h hg

theorem treeNode_replaceNode_other {t : FileTree} {q : Path} {g : FileNode}
    (hne : g.realPath ≠ cleanAbs q) :
    treeNode (replaceNode t g) q = treeNode t q :=
  find?_map_replace_other (cleanAbs q) g (beq_eq_false_iff_ne.mpr hne) t.nodes

theorem realPaths_replaceNode (t : FileTree) (g : FileNode) :
    realPaths (replaceNode t g) = realPaths t := by
  unfold realPaths replaceNode
  rw [List.map_map]
  apply List.map_congr_left
  intro n _
  by_cases h : (n.realPath == g.realPath) = true
  · simp [Function.comp, h, (eq_of_beq h).symm]
  · simp [Function.comp, h]

theorem realPaths_addChildNode (t : FileTree) (fn : FileNode) :
    realPaths (addChildNode t fn) = realPaths t ++ [fn.realPath] := by
  simp [realPaths, addChildNode]

theorem treeNode_nextId (nodes : List FileNode) (i j : Nat) (p : Path) :
    treeNode { nodes := nodes, nextId := i } p = treeNode { nodes := nodes, nextId := j } p := rfl

theorem treeNode_addChildNode_self {t : FileTree} {fn : FileNode}
    (h : treeNode t fn.realPath = none) (hn : cleanAbs fn.realPath = fn.realPath) :
    treeNode (addChildNode t fn) fn.realPath = some fn := by
  unfold treeNode at h ⊢
  unfold addChildNode
  simp only [find?_append_single, h, Option.none_or]
  have : (fn.realPath == cleanAbs fn.realPath) = true := by rw [hn]; simp
  simp [this]

theorem treeNode_addChildNode_other {t : FileTree} {fn : FileNode} {q : Path}
    (hne : fn.realPath ≠ cleanAbs q) :
    treeNode (addChildNode t fn) q = treeNode t q := by
  unfold treeNode addChildNode
  simp only [find?_append_single]
  have : (fn.realPath == cleanAbs q) = false := beq_eq_false_iff_ne.mpr hne
  simp [this]

/-- Case analysis of a successful setFileNode: either an in-place
replace of an existing key, or an insertion whose parent was present. -/
theorem setFileNode_cases {t : FileTree} {fn : FileNode} {t' : FileTree}
    (h : setFileNode t fn = .ok t') :
    (∃ m, treeNode t fn.realPath = some m ∧ t' = replaceNode t fn) ∨
    (treeNode t fn.realPath = none ∧ fn.realPath ≠ [] ∧
      (∃ m2, treeNode t fn.realPath.dropLast = some m2) ∧ t' = addChildNode t fn) := by
  unfold setFileNode at h
  cases htn : treeNode t fn.realPath with
  | some m =>
    simp only [htn] at h
    injection h with h
    exact Or.inl ⟨m, rfl, h.symm⟩
  | none =>
    simp only [htn] at h
    unfold ParentPath at h
    by_cases hr : fn.realPath = []
    · rw [if_pos hr] at h
      exact absurd h (by simp)
    · rw [if_neg hr] at h
      cases hpn : treeNode t fn.realPath.dropLast with
      | none => simp [hpn] at h
      | some m2 =>
        simp only [hpn] at h
        injection h with h
        exact Or.inr ⟨rfl, hr, ⟨m2, rfl⟩, h.symm⟩

theorem setFileNode_ok_lookup {t : FileTree} {fn : FileNode} {t' : FileTree}
    (h : setFileNode t fn = .ok t') (hn : cleanAbs fn.realPath = fn.realPath) :
    treeNode t' fn.realPath = some fn := by
  rcases setFileNode_cases h with ⟨m, hm, ht⟩ | ⟨hnone, _, _, ht⟩
  · subst ht
    exact treeNode_replaceNode_self hm ((treeNode_some_realPath hm).trans hn).symm
  · subst ht
    exact treeNode_addChildNode_self hnone hn

theorem setFileNode_ok_lookup_other {t : FileTree} {fn : FileNode} {t' : FileTree} {q : Path}
    (h : setFileNode t fn = .ok t') (hne : fn.realPath ≠ cleanAbs q) :
    treeNode t' q = treeNode t q := by
  rcases setFileNode_cases h with ⟨m, _, ht⟩ | ⟨_, _, _, ht⟩
  · subst ht
    exact treeNode_replaceNode_other hne
  · subst ht
    exact treeNode_addChildNode_other hne

/-- A successful AddFile leaves a regular-file node carrying the
returned reference at the given path. -/
theorem AddFile_lookup {t : FileTree} {p : Path} {t' : FileTree} {r : Reference}
    (h : AddFile t p = .ok (t', r)) :
    ∃ fn, treeNode t' p = some fn ∧ fn.fileType = .TypeReg ∧ fn.reference = some r := by
  unfold AddFile at h
  cases htn : treeNode t p with
  | some fn =>
    simp only [htn] at h
    by_cases hk : fn.fileType ≠ .TypeReg
    · rw [if_pos hk] at h
      exact absurd h (by simp)
    · rw [if_neg hk] at h
      push_neg at hk
      cases href : fn.reference with
      | some r0 =>
        simp only [href] at h
        injection h with h
        injection h with h1 h2
        subst h1; subst h2
        exact ⟨fn, htn, hk, href⟩
      | none =>
        simp only [href, mkFileReference] at h
        injection h with h
        injection h with h1 h2
        subst h1; subst h2
        refine ⟨{ fn with reference := some ⟨t.nextId, cleanAbs p⟩ }, ?_, hk, rfl⟩
        apply treeNode_replaceNode_self (t := { nodes := t.nodes, nextId := t.nextId + 1 })
        · rw [treeNode_nextId t.nodes (t.nextId + 1) t.nextId]
          exact htn
        · rfl
  | none =>
    simp only [htn] at h
    cases hpp : addParentPaths t p with
    | error e => rw [hpp] at h; exact absurd h (by simp)
    | ok t1 =>
      rw [hpp] at h
      simp only [mkFileReference] at h
      cases hsf : setFileNode { nodes := t1.nodes, nextId := t1.nextId + 1 }
          (NewFile p (some ⟨t1.nextId, cleanAbs p⟩)) with
      | error e => rw [hsf] at h; exact absurd h (by simp)
      | ok t3 =>
        rw [hsf] at h
        injection h with h
        injection h with h1 h2
        refine ⟨NewFile p (some ⟨t1.nextId, cleanAbs p⟩), ?_, rfl, by rw [← h2]; rfl⟩
        rw [← h1]
        have hlk := setFileNode_ok_lookup hsf (by simp [NewFile, cleanAbs_idem])
        have hc : treeNode t3 p = treeNode t3 (NewFile p (some ⟨t1.nextId, cleanAbs p⟩)).realPath :=
          treeNode_congr (by simp [NewFile, cleanAbs_idem])
        rw [hc]
        exact hlk

/-- A successful AddDir leaves a directory node carrying the returned
reference at the given path. -/
theorem AddDir_lookup {t : FileTree} {p : Path} {t' : FileTree} {r : Reference}
    (h : AddDir t p = .ok (t', r)) :
    ∃ fn, treeNode t' p = some fn ∧ fn.fileType = .TypeDir ∧ fn.reference = some r := by
  unfold AddDir at h
  cases htn : treeNode t p with
  | some fn =>
    simp only [htn] at h
    by_cases hk : fn.fileType ≠ .TypeDir
    · rw [if_pos hk] at h
      exact absurd h (by simp)
    · rw [if_neg hk] at h
      push_neg at hk
      cases href : fn.reference with
      | some r0 =>
        simp only [href] at h
        injection h with h
        injection h with h1 h2
        subst h1; subst h2
        exact ⟨fn, htn, hk, href⟩
      | none =>
        simp only [href, mkFileReference] at h
        injection h with h
        injection h with h1 h2
        subst h1; subst h2
        refine ⟨{ fn with reference := some ⟨t.nextId, cleanAbs p⟩ }, ?_, hk, rfl⟩
        apply treeNode_replaceNode_self (t := { nodes := t.nodes, nextId := t.nextId + 1 })
        · rw [treeNode_nextId t.nodes (t.nextId + 1) t.nextId]
          exact htn
        · rfl
  | none =>
    simp only [htn] at h
    cases hpp : addParentPaths t p with
    | error e => rw [hpp] at h; exact absurd h (by simp)
    | ok t1 =>
      rw [hpp] at h
      simp only [mkFileReference] at h
      cases hsf : setFileNode { nodes := t1.nodes, nextId := t1.nextId + 1 }
          (NewDir p (some ⟨t1.nextId, cleanAbs p⟩)) with
      | error e => rw [hsf] at h; exact absurd h (by simp)
      | ok t3 =>
        rw [hsf] at h
        injection h with h
        injection h with h1 h2
        refine ⟨NewDir p (some ⟨t1.nextId, cleanAbs p⟩), ?_, rfl, by rw [← h2]; rfl⟩
        rw [← h1]
        have hlk := setFileNode_ok_lookup hsf (by simp [NewDir, cleanAbs_idem])
        have hc : treeNode t3 p = treeNode t3 (NewDir p (some ⟨t1.nextId, cleanAbs p⟩)).realPath :=
          treeNode_congr (by simp [NewDir, cleanAbs_idem])
        rw [hc]
        exact hlk

/-- The first phase of File is a direct lookup: a non-link node is
returned at once, with no link resolution and hence no fuel use. -/
theorem File_direct_hit {t : FileTree} {fuel : Nat} {p : Path} {opts : List LinkResolutionOption}
    {fn : FileNode} (h : treeNode t p = some fn) (hl : fn.isLink = false) :
    File t fuel p opts = .ok (true, fn.reference) := by
  unfold File node
  simp [linkResolutionStrategy.FollowLinks, h, hl]

theorem HasPath_of_nonlink {t : FileTree} {fuel : Nat} {p : Path} {fn : FileNode}
    (h : treeNode t p = some fn) (hl : fn.isLink = false) :
    HasPath t fuel p = true := by
  unfold HasPath
  rw [File_direct_hit h hl]

/-- C1 counterexample: AddSymLink("/a", "/b") on a fresh tree succeeds,
yet HasPath("/a") is false, because the basename link is dead: File
resolves "/a" to the absent node "/b" and reports non-existence, so the
claim that HasPath(p) holds after every successful AddSymLink(p, target)
fails at this input. -/
theorem c1_counterexample :
    AddSymLink NewFileTree ["a"] ⟨true, ["b"]⟩ = .ok (exTreeDeadLink, ⟨0, ["a"]⟩) ∧
    File exTreeDeadLink 100 ["a"] [.FollowBasenameLinks] = .ok (false, none) ∧
    HasPath exTreeDeadLink 100 ["a"] = false :=
  ⟨by decide, by decide, by decide⟩

/-- C1 (amended): after a successful AddFile(p) or AddDir(p), HasPath(p)
is true (at any fuel, since the direct lookup hits a non-link node);
after AddSymLink or AddHardLink the property holds only when the link
chain resolves to an existing node, and in particular fails for a
symlink whose target does not exist: AddSymLink("/a", "/b") on a fresh
tree leaves HasPath("/a") false. -/
theorem c1_amended :
    (∀ (t : FileTree) (p : Path) (t' : FileTree) (r : Reference) (fuel : Nat),
      AddFile t p = .ok (t', r) → HasPath t' fuel p = true) ∧
    (∀ (t : FileTree) (p : Path) (t' : FileTree) (r : Reference) (fuel : Nat),
      AddDir t p = .ok (t', r) → HasPath t' fuel p = true) ∧
    HasPath exTreeDeadLink 100 ["a"] = false := by
  refine ⟨?_, ?_, by decide⟩
  · intro t p t' r fuel h
    obtain ⟨fn, hfn, hty, _⟩ := AddFile_lookup h
    exact HasPath_of_nonlink hfn (by simp [FileNode.isLink, hty])
  · intro t p t' r fuel h
    obtain ⟨fn, hfn, hty, _⟩ := AddDir_lookup h
    exact HasPath_of_nonlink hfn (by simp [FileNode.isLink, hty])

/-- C1 witness: the amended theorem applied to AddFile("/w") on a fresh
tree. -/
theorem c1_witness :
    HasPath (applyOp NewFileTree (.addFile ["w"])) 50 ["w"] = true :=
  c1_amended.1 NewFileTree ["w"] (applyOp NewFileTree (.addFile ["w"])) ⟨0, ["w"]⟩ 50 (by decide)

/-- Common description of the Add* behavior on an existing path of
matching kind or of a different kind, for AddFile. -/
theorem AddFile_existing {t : FileTree} {p : Path} {fn : FileNode}
    (htn : treeNode t p = some fn) :
    (fn.fileType ≠ .TypeReg → AddFile t p = .error (.kindMismatch (cleanAbs p))) ∧
    (∀ r, fn.fileType = .TypeReg → fn.reference = some r → AddFile t p = .ok (t, r)) ∧
    (fn.fileType = .TypeReg → fn.reference = none →
      ∃ t', AddFile t p = .ok (t', ⟨t.nextId, cleanAbs p⟩) ∧
        treeNode t' p = some { fn with reference := some ⟨t.nextId, cleanAbs p⟩ } ∧
        realPaths t' = realPaths t) := by
  refine ⟨?_, ?_, ?_⟩
  · intro hk
    simp only [AddFile, htn]
    rw [if_pos hk]
  · intro r hk href
    simp only [AddFile, htn, href]
    rw [if_neg (by simp [hk])]
  · intro hk href
    refine ⟨replaceNode { nodes := t.nodes, nextId := t.nextId + 1 }
      { fn with reference := some ⟨t.nextId, cleanAbs p⟩ }, ?_, ?_, ?_⟩
    · simp only [AddFile, htn, href, mkFileReference]
      rw [if_neg (by simp [hk])]
    · apply treeNode_replaceNode_self (t := { nodes := t.nodes, nextId := t.nextId + 1 })
      · rw [treeNode_nextId t.nodes (t.nextId + 1) t.nextId]
        exact htn
      · rfl
    · rw [realPaths_replaceNode]
      rfl

/-- Common description of the Add* behavior on an existing path, for
AddDir. -/
theorem AddDir_existing {t : FileTree} {p : Path} {fn : FileNode}
    (htn : treeNode t p = some fn) :
    (fn.fileType ≠ .TypeDir → AddDir t p = .error (.kindMismatch (cleanAbs p))) ∧
    (∀ r, fn.fileType = .TypeDir → fn.reference = some r → AddDir t p = .ok (t, r)) ∧
    (fn.fileType = .TypeDir → fn.reference = none →
      ∃ t', AddDir t p = .ok (t', ⟨t.nextId, cleanAbs p⟩) ∧
        treeNode t' p = some { fn with reference := some ⟨t.nextId, cleanAbs p⟩ } ∧
        realPaths t' = realPaths t) := by
  refine ⟨?_, ?_, ?_⟩
  · intro hk
    simp only [AddDir, htn]
    rw [if_pos hk]
  · intro r hk href
    simp only [AddDir, htn, href]
    rw [if_neg (by simp [hk])]
  · intro hk href
    refine ⟨replaceNode { nodes := t.nodes, nextId := t.nextId + 1 }
      { fn with reference := some ⟨t.nextId, cleanAbs p⟩ }, ?_, ?_, ?_⟩
    · simp only [AddDir, htn, href, mkFileReference]
      rw [if_neg (by simp [hk])]
    · apply treeNode_replaceNode_self (t := { nodes := t.nodes, nextId := t.nextId + 1 })
      · rw [treeNode_nextId t.nodes (t.nextId + 1) t.nextId]
        exact htn
      · rfl
    · rw [realPaths_replaceNode]
      rfl

/-- Common description of the Add* behavior on an existing path, for
AddSymLink. -/
theorem AddSymLink_existing {t : FileTree} {p : Path} {fn : FileNode} (tgt : LinkTarget)
    (htn : treeNode t p = some fn) :
    (fn.fileType ≠ .TypeSymlink → AddSymLink t p tgt = .error (.kindMismatch (cleanAbs p))) ∧
    (∀ r, fn.fileType = .TypeSymlink → fn.reference = some r → AddSymLink t p tgt = .ok (t, r)) ∧
    (fn.fileType = .TypeSymlink → fn.reference = none →
      ∃ t', AddSymLink t p tgt = .ok (t', ⟨t.nextId, cleanAbs p⟩) ∧
        treeNode t' p = some { fn with reference := some ⟨t.nextId, cleanAbs p⟩ } ∧
        realPaths t' = realPaths t) := by
  refine ⟨?_, ?_, ?_⟩
  · intro hk
    simp only [AddSymLink, htn]
    rw [if_pos hk]
  · intro r hk href
    simp only [AddSymLink, htn, href]
    rw [if_neg (by simp [hk])]
  · intro hk href
    refine ⟨replaceNode { nodes := t.nodes, nextId := t.nextId + 1 }
      { fn with reference := some ⟨t.nextId, cleanAbs p⟩ }, ?_, ?_, ?_⟩
    · simp only [AddSymLink, htn, href, mkFileReference]
      rw [if_neg (by simp [hk])]
    · apply treeNode_replaceNode_self (t := { nodes := t.nodes, nextId := t.nextId + 1 })
      · rw [treeNode_nextId t.nodes (t.nextId + 1) t.nextId]
        exact htn
      · rfl
    · rw [realPaths_replaceNode]
      rfl

/-- Common description of the Add* behavior on an existing path, for
AddHardLink. -/
theorem AddHardLink_existing {t : FileTree} {p : Path} {fn : FileNode} (tgt : LinkTarget)
    (htn : treeNode t p = some fn) :
    (fn.fileType ≠ .TypeHardLink → AddHardLink t p tgt = .error (.kindMismatch (cleanAbs p))) ∧
    (∀ r, fn.fileType = .TypeHardLink → fn.reference = some r → AddHardLink t p tgt = .ok (t, r)) ∧
    (fn.fileType = .TypeHardLink → fn.reference = none →
      ∃ t', AddHardLink t p tgt = .ok (t', ⟨t.nextId, cleanAbs p⟩) ∧
        treeNode t' p = some { fn with reference := some ⟨t.nextId, cleanAbs p⟩ } ∧
        realPaths t' = realPaths t) := by
  refine ⟨?_, ?_, ?_⟩
  · intro hk
    simp only [AddHardLink, htn]
    rw [if_pos hk]
  · intro r hk href
    simp only [AddHardLink, htn, href]
    rw [if_neg (by simp [hk])]
  · intro hk href
    refine ⟨replaceNode { nodes := t.nodes, nextId := t.nextId + 1 }
      { fn with reference := some ⟨t.nextId, cleanAbs p⟩ }, ?_, ?_, ?_⟩
    · simp only [AddHardLink, htn, href, mkFileReference]
      rw [if_neg (by simp [hk])]
    · apply treeNode_replaceNode_self (t := { nodes := t.nodes, nextId := t.nextId + 1 })
      · rw [treeNode_nextId t.nodes (t.nextId + 1) t.nextId]
        exact htn
      · rfl
    · rw [realPaths_replaceNode]
      rfl

/-- C6: every Add* operation on an existing path succeeds when the kind
matches, assigning a fresh reference (the factory's next id) only when
the node has none and returning the node's reference otherwise, and
fails with a kind-mismatch error when the kind differs. -/
theorem c6_add_existing (t : FileTree) (p : Path) (fn : FileNode) (tgt : LinkTarget)
    (htn : treeNode t p = some fn) :
    ((fn.fileType ≠ .TypeReg → AddFile t p = .error (.kindMismatch (cleanAbs p))) ∧
      (∀ r, fn.fileType = .TypeReg → fn.reference = some r → AddFile t p = .ok (t, r)) ∧
      (fn.fileType = .TypeReg → fn.reference = none →
        ∃ t', AddFile t p = .ok (t', ⟨t.nextId, cleanAbs p⟩) ∧
          treeNode t' p = some { fn with reference := some ⟨t.nextId, cleanAbs p⟩ } ∧
          realPaths t' = realPaths t)) ∧
    ((fn.fileType ≠ .TypeDir → AddDir t p = .error (.kindMismatch (cleanAbs p))) ∧
      (∀ r, fn.fileType = .TypeDir → fn.reference = some r → AddDir t p = .ok (t, r)) ∧
      (fn.fileType = .TypeDir → fn.reference = none →
        ∃ t', AddDir t p = .ok (t', ⟨t.nextId, cleanAbs p⟩) ∧
          treeNode t' p = some { fn with reference := some ⟨t.nextId, cleanAbs p⟩ } ∧
          realPaths t' = realPaths t)) ∧
    ((fn.fileType ≠ .TypeSymlink → AddSymLink t p tgt = .error (.kindMismatch (cleanAbs p))) ∧
      (∀ r, fn.fileType = .TypeSymlink → fn.reference = some r → AddSymLink t p tgt = .ok (t, r)) ∧
      (fn.fileType = .TypeSymlink → fn.reference = none →
        ∃ t', AddSymLink t p tgt = .ok (t', ⟨t.nextId, cleanAbs p⟩) ∧
          treeNode t' p = some { fn with reference := some ⟨t.nextId, cleanAbs p⟩ } ∧
          realPaths t' = realPaths t)) ∧
    ((fn.fileType ≠ .TypeHardLink → AddHardLink t p tgt = .error (.kindMismatch (cleanAbs p))) ∧
      (∀ r, fn.fileType = .TypeHardLink → fn.reference = some r → AddHardLink t p tgt = .ok (t, r)) ∧
      (fn.fileType = .TypeHardLink → fn.reference = none →
        ∃ t', AddHardLink t p tgt = .ok (t', ⟨t.nextId, cleanAbs p⟩) ∧
          treeNode t' p = some { fn with reference := some ⟨t.nextId, cleanAbs p⟩ } ∧
          realPaths t' = realPaths t)) :=
  ⟨AddFile_existing htn, AddDir_existing htn,
    AddSymLink_existing tgt htn, AddHardLink_existing tgt htn⟩

/-- C6 witness: on a tree holding the regular file "/w", AddDir("/w")
fails with a kind mismatch. -/
theorem c6_witness :
    AddDir (applyOp NewFileTree (.addFile ["w"])) ["w"] = .error (.kindMismatch (cleanAbs ["w"])) :=
  ((c6_add_existing (applyOp NewFileTree (.addFile ["w"])) ["w"]
    ⟨["w"], .TypeReg, none, some ⟨0, ["w"]⟩⟩ ⟨true, []⟩ (by decide)).2.1).1 (by decide)

/-- C7: RemovePath rejects a path normalizing to the root with the
dedicated error; when ancestor-only resolution finds nothing it is a
no-op returning the unchanged tree; when it finds a node (the link
itself, since basename links are not followed) it removes that node
together with its whole subtree; concretely, on a tree where "/a" is a
symlink to the regular file "/b", RemovePath("/a") removes the link
node "/a" and leaves the target "/b" in place. -/
theorem c7_removePath :
    (∀ (t : FileTree) (fuel : Nat) (p : Path), cleanAbs p = [] →
      RemovePath t fuel p = .error .removingRoot) ∧
    (∀ (t : FileTree) (fuel : Nat) (p q : Path), cleanAbs p ≠ [] →
      node t fuel p { FollowAncestorLinks := true, FollowBasenameLinks := false } = .ok (q, none) →
      RemovePath t fuel p = .ok t) ∧
    (∀ (t : FileTree) (fuel : Nat) (p q : Path) (fn : FileNode), cleanAbs p ≠ [] →
      node t fuel p { FollowAncestorLinks := true, FollowBasenameLinks := false } =
        .ok (q, some fn) →
      fn.realPath ≠ [] →
      RemovePath t fuel p =
        .ok { nodes := t.nodes.filter (fun m => ¬ fn.realPath.isPrefixOf m.realPath),
              nextId := t.nextId }) ∧
    ((RemovePath exTreeLinkAndTarget 100 ["a"]).toOption.map
      (fun m => (treeNode m ["a"], (treeNode m ["b"]).isSome)) = some (none, true)) := by
  refine ⟨?_, ?_, ?_, by decide⟩
  · intro t fuel p h
    unfold RemovePath
    rw [if_pos h]
  · intro t fuel p q h hnode
    simp only [RemovePath, hnode]
    rw [if_neg h]
  · intro t fuel p q fn h hnode hfn
    simp only [RemovePath, hnode]
    rw [if_neg h]
    simp only [removeSubtree]
    rw [if_neg hfn]

/-- C7 witness: RemovePath("/") errors, and RemovePath of an absent
path on a fresh tree is a no-op. -/
theorem c7_witness :
    RemovePath NewFileTree 10 [] = .error .removingRoot ∧
    RemovePath NewFileTree 10 ["gone"] = .ok NewFileTree :=
  ⟨c7_removePath.1 NewFileTree 10 [] (by decide),
    c7_removePath.2.1 NewFileTree 10 ["gone"] ["gone"] (by decide) (by decide)⟩

/-- C10: whenever File(p, follow-basename-links) returns an error,
HasPath(p) is false rather than propagating it, and HasPath is true
exactly when File succeeds reporting existence, so HasPath cannot
distinguish a resolution failure from an absent path; concretely, on
the two-link cycle File("/a") errors with LinkCycleDetected and
HasPath("/a") is false. -/
theorem c10_hasPath_swallows_errors :
    (∀ (t : FileTree) (fuel : Nat) (p : Path) (e : FTErr),
      File t fuel p [.FollowBasenameLinks] = .error e → HasPath t fuel p = false) ∧
    (∀ (t : FileTree) (fuel : Nat) (p : Path),
      HasPath t fuel p = true ↔ ∃ r, File t fuel p [.FollowBasenameLinks] = .ok (true, r)) ∧
    File exTreeCycle2 100 ["a"] [.FollowBasenameLinks] = .error .linkCycleDetected ∧
    HasPath exTreeCycle2 100 ["a"] = false := by
  refine ⟨?_, ?_, by decide, by decide⟩
  · intro t fuel p e h
    unfold HasPath
    rw [h]
  · intro t fuel p
    unfold HasPath
    cases hf : File t fuel p [.FollowBasenameLinks] with
    | error e => simp
    | ok pr =>
      cases pr with
      | mk ex r =>
        cases ex
        · simp
        · exact ⟨fun _ => ⟨r, rfl⟩, fun _ => rfl⟩

/-- C10 witness: the error-swallowing implication applied to the
concrete link cycle. -/
theorem c10_witness : HasPath exTreeCycle2 100 ["a"] = false :=
  c10_hasPath_swallows_errors.1 exTreeCycle2 100 ["a"] .linkCycleDetected (by decide)

/-- C3: the resolution loop keeps the set of canonical paths already
seen within this call and fails with LinkCycleDetected as soon as the
current path is in that set; concretely, after AddSymLink("/a","/b")
and AddSymLink("/b","/a"), File("/a", follow-basename-links) returns
the LinkCycleDetected error. -/
theorem c3_link_cycle :
    (∀ (t : FileTree) (fuel : Nat) (fd : Bool) (seen : List Path) (lp cp : Path)
      (ln : Option FileNode) (cn : FileNode), cp ∈ seen →
      nodeLinksGo t (fuel + 1) fd seen lp ln cp (some cn) = .error .linkCycleDetected) ∧
    AddSymLink (applyOps NewFileTree [.addSymLink ["a"] ⟨true, ["b"]⟩]) ["b"] ⟨true, ["a"]⟩ =
      .ok (exTreeCycle2, ⟨1, ["b"]⟩) ∧
    File exTreeCycle2 100 ["a"] [.FollowBasenameLinks] = .error .linkCycleDetected := by
  refine ⟨?_, by decide, by decide⟩
  intro t fuel fd seen lp cp ln cn h
  simp only [nodeLinksGo]
  rw [if_pos h]

/-- C3 witness: the loop lemma applied at a concrete seen set already
holding the current path. -/
theorem c3_witness :
    nodeLinksGo NewFileTree 1 true [[]] [] none [] (some (NewDir [] none)) =
      .error .linkCycleDetected :=
  c3_link_cycle.1 NewFileTree 0 true [[]] [] [] none (NewDir [] none) (by decide)

/-- Well-formedness of resolver results: a successful resolution
returns a path all of whose segments are normal, and whenever a node is
returned it is located exactly at the returned path.  Proved for all
four mutually recursive resolver functions at once by induction on the
fuel. -/
theorem resolver_result_wf : ∀ fuel : Nat,
    (∀ (t : FileTree) (p : List String) (q : Path) (res : Option FileNode),
      resolveAncestorLinks t fuel p = .ok (q, res) →
      (∀ s ∈ q, segOK s) ∧ ∀ m, res = some m → m.realPath = q) ∧
    (∀ (t : FileTree) (parts : List String) (acc : Path) (curr : Option FileNode)
      (q : Path) (res : Option FileNode),
      (∀ s ∈ acc, segOK s) → (∀ s ∈ parts, segOK s) →
      (∀ c, curr = some c → c.realPath = acc) →
      ancestorGo t fuel parts acc curr = .ok (q, res) →
      (∀ s ∈ q, segOK s) ∧ ∀ m, res = some m → m.realPath = q) ∧
    (∀ (t : FileTree) (n : FileNode) (fd : Bool) (q : Path) (res : Option FileNode),
      (∀ s ∈ n.realPath, segOK s) →
      resolveNodeLinks t fuel n fd = .ok (q, res) →
      (∀ s ∈ q, segOK s) ∧ ∀ m, res = some m → m.realPath = q) ∧
    (∀ (t : FileTree) (fd : Bool) (seen : List Path) (lp : Path) (ln : Option FileNode)
      (cp : Path) (cn : Option FileNode) (q : Path) (res : Option FileNode),
      (∀ s ∈ cp, segOK s) → (∀ s ∈ lp, segOK s) →
      (∀ c, cn = some c → c.realPath = cp) →
      (∀ c, ln = some c → c.realPath = lp) →
      nodeLinksGo t fuel fd seen lp ln cp cn = .ok (q, res) →
      (∀ s ∈ q, segOK s) ∧ ∀ m, res = some m → m.realPath = q) := by
  intro fuel
  induction fuel with
  | zero =>
    refine ⟨?_, ?_, ?_, ?_⟩
    · intro t p q res h
      exact absurd h (by simp [resolveAncestorLinks])
    · intro t parts acc curr q res _ _ _ h
      exact absurd h (by simp [ancestorGo])
    · intro t n fd q res _ h
      exact absurd h (by simp [resolveNodeLinks])
    · intro t fd seen lp ln cp cn q res _ _ _ _ h
      exact absurd h (by simp [nodeLinksGo])
  | succ fuel ih =>
    obtain ⟨ihRAL, ihAG, ihRNL, ihNLG⟩ := ih
    refine ⟨?_, ?_, ?_, ?_⟩
    · intro t p q res h
      simp only [resolveAncestorLinks] at h
      exact ihAG t (cleanAbs p) [] none q res (by simp) segOK_cleanAbs
        (fun c hc => by simp at hc) h
    · intro t parts acc curr q res hacc hparts hcurr h
      cases parts with
      | nil =>
        simp only [ancestorGo] at h
        injection h with h
        injection h with h1 h2
        subst h1
        subst h2
        exact ⟨hacc, hcurr⟩
      | cons part rest =>
        simp only [ancestorGo] at h
        have hcp : ∀ s ∈ acc ++ [part], segOK s :=
          segOK_append hacc (hparts part (by simp))
        have hrest : ∀ s ∈ rest, segOK s := fun s hs => hparts s (by simp [hs])
        cases htn : treeNode t (acc ++ [part]) with
        | none =>
          simp only [htn] at h
          injection h with h
          injection h with h1 h2
          subst h1
          subst h2
          exact ⟨hcp, by simp⟩
        | some n =>
          simp only [htn] at h
          have hnr : n.realPath = acc ++ [part] :=
            (treeNode_some_realPath htn).trans (cleanAbs_of_ok hcp)
          by_cases hrefn : n.reference = none
          · rw [if_pos hrefn] at h
            exact ihAG t rest (acc ++ [part]) (some n) q res hcp hrest
              (fun c hc => by injection hc with hc; rw [← hc]; exact hnr) h
          · rw [if_neg hrefn] at h
            by_cases hlk : rest ≠ [] ∧ n.isLink
            · rw [if_pos hlk] at h
              revert h
              cases hrnl : resolveNodeLinks t fuel n true with
              | error e =>
                intro h
                exact absurd h (by simp)
              | ok pr =>
                obtain ⟨rp, rn⟩ := pr
                intro h
                obtain ⟨hrp, hrn⟩ := ihRNL t n true rp rn (by rw [hnr]; exact hcp) hrnl
                exact ihAG t rest rp rn q res hrp hrest hrn h
            · rw [if_neg hlk] at h
              exact ihAG t rest (acc ++ [part]) (some n) q res hcp hrest
                (fun c hc => by injection hc with hc; rw [← hc]; exact hnr) h
    · intro t n fd q res hn h
      simp only [resolveNodeLinks] at h
      exact ihNLG t fd [] [] none n.realPath (some n) q res hn (by simp)
        (fun c hc => by injection hc with hc; rw [← hc])
        (fun c hc => by simp at hc) h
    · intro t fd seen lp ln cp cn q res hcp hlp hcn hln h
      cases cn with
      | none =>
        cases fd with
        | true =>
          simp only [nodeLinksGo] at h
          rw [if_pos True.intro] at h
          injection h with h
          injection h with h1 h2
          subst h1
          subst h2
          exact ⟨hcp, by simp⟩
        | false =>
          simp only [nodeLinksGo] at h
          rw [if_neg (by simp)] at h
          injection h with h
          injection h with h1 h2
          subst h1
          subst h2
          exact ⟨hlp, hln⟩
      | some c =>
        simp only [nodeLinksGo] at h
        by_cases hseen : cp ∈ seen
        · rw [if_pos hseen] at h
          exact absurd h (by simp)
        · rw [if_neg hseen] at h
          by_cases hlink : ¬ (c.isLink = true)
          · rw [if_pos hlink] at h
            injection h with h
            injection h with h1 h2
            subst h1
            subst h2
            exact ⟨hcp, fun m hm => by injection hm with hm; rw [← hm]; exact hcn c rfl⟩
          · rw [if_neg hlink] at h
            revert h
            cases hral : resolveAncestorLinks t fuel (nextLinkPath c) with
            | error e =>
              intro h
              exact absurd h (by simp)
            | ok pr =>
              obtain ⟨p2, n2⟩ := pr
              intro h
              obtain ⟨hp2, hn2⟩ := ihRAL t (nextLinkPath c) p2 n2 hral
              exact ihNLG t fd (cp :: seen) cp (some c) p2 n2 q res hp2 hcp hn2
                (fun x hx => by injection hx with hx; rw [← hx]; exact hcn c rfl) h

/-- The two runs of the link-chain loop that differ only in the
dead-link flag take identical steps; when the run that follows dead
links ends at an absent node, the run that does not follow them ends
without error at the last link node encountered, returned together
with that link's own path.  The loop invariant records that the saved
last node is a link sitting exactly at the saved last path and that
following its target produced the current loop state. -/
theorem nodeLinksGo_dead :
    ∀ (fuel : Nat) (t : FileTree) (seen : List Path) (lp : Path) (ln : Option FileNode)
      (cp : Path) (cn : Option FileNode) (q : Path),
      (∀ s ∈ cp, segOK s) → (∀ s ∈ lp, segOK s) →
      (∀ c, cn = some c → c.realPath = cp) →
      (∀ l, ln = some l → l.isLink = true ∧ l.realPath = lp ∧
        ∃ g, resolveAncestorLinks t g (nextLinkPath l) = .ok (cp, cn)) →
      (cn = none → ln.isSome) →
      nodeLinksGo t fuel true seen lp ln cp cn = .ok (q, none) →
      ∃ lp' l', nodeLinksGo t fuel false seen lp ln cp cn = .ok (lp', some l') ∧
        l'.isLink = true ∧ l'.realPath = lp' ∧
        ∃ g, resolveAncestorLinks t g (nextLinkPath l') = .ok (q, none) := by
  intro fuel
  induction fuel with
  | zero =>
    intro t seen lp ln cp cn q _ _ _ _ _ h
    exact absurd h (by simp [nodeLinksGo])
  | succ fuel ih =>
    intro t seen lp ln cp cn q hcp hlp hcn hln hdead h
    cases cn with
    | none =>
      simp only [nodeLinksGo] at h
      rw [if_pos True.intro] at h
      injection h with h
      injection h with h1 _
      subst h1
      obtain ⟨l, hl⟩ := Option.isSome_iff_exists.mp (hdead rfl)
      subst hl
      obtain ⟨hl1, hl2, g, hg⟩ := hln l rfl
      refine ⟨lp, l, ?_, hl1, hl2, ⟨g, hg⟩⟩
      simp only [nodeLinksGo]
      rw [if_neg (by simp)]
    | some c =>
      simp only [nodeLinksGo] at h ⊢
      by_cases hseen : cp ∈ seen
      · rw [if_pos hseen] at h
        exact absurd h (by simp)
      · rw [if_neg hseen] at h ⊢
        by_cases hlink : ¬ (c.isLink = true)
        · rw [if_pos hlink] at h
          simp at h
        · rw [if_neg hlink] at h ⊢
          revert h
          cases hral : resolveAncestorLinks t fuel (nextLinkPath c) with
          | error e =>
            intro h
            simp at h
          | ok pr =>
            obtain ⟨p2, n2⟩ := pr
            intro h
            obtain ⟨hp2, hn2⟩ := (resolver_result_wf fuel).1 t (nextLinkPath c) p2 n2 hral
            exact ih t (cp :: seen) cp (some c) p2 n2 q hp2 hcp hn2
              (fun l hl => by
                injection hl with hl
                rw [← hl]
                exact ⟨not_not.mp hlink, hcn c rfl, ⟨fuel, hral⟩⟩)
              (fun _ => rfl) h

/-- C4: when basename-link resolution ends at an absent node, the
dead-link policy decides the result: with
do_not_follow_dead_basename_links set (followDead = false) the last
link node encountered is returned together with that link's own path
(the returned node is a link, it sits exactly at the returned path,
and following its own target yields precisely the absent dead end that
the other run reported, which no earlier link of the chain does);
with the flag unset the absent result is returned; and neither case is
an error. -/
theorem c4_dead_link_policy :
    ∀ (t : FileTree) (fuel : Nat) (n : FileNode) (q : Path),
      (∀ s ∈ n.realPath, segOK s) →
      resolveNodeLinks t fuel n true = .ok (q, none) →
      ∃ lp l, resolveNodeLinks t fuel n false = .ok (lp, some l) ∧
        l.isLink = true ∧ l.realPath = lp ∧
        ∃ g, resolveAncestorLinks t g (nextLinkPath l) = .ok (q, none) := by
  intro t fuel n q hn h
  cases fuel with
  | zero => exact absurd h (by simp [resolveNodeLinks])
  | succ fuel =>
    simp only [resolveNodeLinks] at h ⊢
    exact nodeLinksGo_dead fuel t [] [] none n.realPath (some n) q hn (by simp)
      (fun c hc => by injection hc with hc; rw [← hc])
      (fun l hl => by simp at hl) (fun hc => by simp at hc) h

/-- C4 witness: the policy applied to the dangling symlink "/a" whose
target "/b" is absent; not following the dead link returns the link
node itself at its own path, and following that link's target is the
absent dead end at "/b". -/
theorem c4_witness :
    ∃ lp l, resolveNodeLinks exTreeDeadLink 100
        ⟨["a"], .TypeSymlink, some ⟨true, ["b"]⟩, some ⟨0, ["a"]⟩⟩ false =
      .ok (lp, some l) ∧ l.isLink = true ∧ l.realPath = lp ∧
      ∃ g, resolveAncestorLinks exTreeDeadLink g (nextLinkPath l) = .ok (["b"], none) :=
  c4_dead_link_policy exTreeDeadLink 100
    ⟨["a"], .TypeSymlink, some ⟨true, ["b"]⟩, some ⟨0, ["a"]⟩⟩ ["b"]
    (by decide) (by decide)

/-- One round of the mutual recursion on the ancestor-link cycle, "/a"
side: if resolving the link chain of "/b" exhausts i units of fuel,
then resolving the chain of "/a" exhausts i + 4 units, because the
chain of "/a" reaches "/b" as an intermediate (ancestor) segment of
"/b/x" and recurses into it with a fresh visited set. -/
theorem cycStepA (i : Nat)
    (hb : resolveNodeLinks exTreeAncCycle i exAncCycleNodeB true = .error .fuelOut) :
    resolveNodeLinks exTreeAncCycle (i + 4) exAncCycleNodeA true = .error .fuelOut := by
  have e1 : resolveNodeLinks exTreeAncCycle (i + 4) exAncCycleNodeA true =
      (match resolveAncestorLinks exTreeAncCycle (i + 2) ["b","x"] with
        | .error e => .error e
        | .ok (p2, n2) =>
            nodeLinksGo exTreeAncCycle (i + 2) true [["a"]] ["a"] (some exAncCycleNodeA) p2 n2) :=
    rfl
  have e2 : resolveAncestorLinks exTreeAncCycle (i + 2) ["b","x"] =
      (match resolveNodeLinks exTreeAncCycle i exAncCycleNodeB true with
        | .error e => .error e
        | .ok (rp, rn) => ancestorGo exTreeAncCycle i ["x"] rp rn) := rfl
  rw [e1, e2, hb]

/-- One round of the mutual recursion on the ancestor-link cycle, "/b"
side. -/
theorem cycStepB (i : Nat)
    (ha : resolveNodeLinks exTreeAncCycle i exAncCycleNodeA true = .error .fuelOut) :
    resolveNodeLinks exTreeAncCycle (i + 4) exAncCycleNodeB true = .error .fuelOut := by
  have e1 : resolveNodeLinks exTreeAncCycle (i + 4) exAncCycleNodeB true =
      (match resolveAncestorLinks exTreeAncCycle (i + 2) ["a","y"] with
        | .error e => .error e
        | .ok (p2, n2) =>
            nodeLinksGo exTreeAncCycle (i + 2) true [["b"]] ["b"] (some exAncCycleNodeB) p2 n2) :=
    rfl
  have e2 : resolveAncestorLinks exTreeAncCycle (i + 2) ["a","y"] =
      (match resolveNodeLinks exTreeAncCycle i exAncCycleNodeA true with
        | .error e => .error e
        | .ok (rp, rn) => ancestorGo exTreeAncCycle i ["y"] rp rn) := rfl
  rw [e1, e2, ha]

/-- On the ancestor-link cycle, basename resolution of either link node
exhausts every finite amount of fuel: the mutual recursion of
resolveNodeLinks and resolveAncestorLinks never returns, because each
nested call starts a fresh visited set. -/
theorem cyc_rnl_fuelOut : ∀ f : Nat,
    resolveNodeLinks exTreeAncCycle f exAncCycleNodeA true = .error .fuelOut ∧
    resolveNodeLinks exTreeAncCycle f exAncCycleNodeB true = .error .fuelOut := by
  intro f
  induction f using Nat.strong_induction_on with
  | _ f ih =>
    rcases f with _ | _ | _ | _ | i
    · exact ⟨by decide, by decide⟩
    · exact ⟨by decide, by decide⟩
    · exact ⟨by decide, by decide⟩
    · exact ⟨by decide, by decide⟩
    · obtain ⟨ha, hb⟩ := ih i (by omega)
      exact ⟨cycStepA i hb, cycStepB i ha⟩

/-- C2 (code bug): on the tree with AddSymLink("/a","/b/x") and
AddSymLink("/b","/a/y"), full resolution of "/a" does not terminate:
for every fuel the embedding reports fuel exhaustion instead of
LinkCycleDetected, because the cycle runs through intermediate
(ancestor) link segments of distinct paths and each nested
resolveNodeLinks call starts a fresh visited set, so the cycle is never
detected and the mutual recursion descends forever. -/
theorem c2_ancestor_cycle_diverges :
    ∀ fuel : Nat,
      node exTreeAncCycle fuel ["a"]
        { FollowAncestorLinks := true, FollowBasenameLinks := true } = .error .fuelOut := by
  intro fuel
  rcases fuel with _ | _ | _ | k
  · decide
  · decide
  · decide
  · have e1 : node exTreeAncCycle (k + 3) ["a"]
        { FollowAncestorLinks := true, FollowBasenameLinks := true } =
        resolveNodeLinks exTreeAncCycle (k + 3) exAncCycleNodeA true := rfl
    exact e1.trans (cyc_rnl_fuelOut (k + 3)).1

theorem mem_realPaths_iff {t : FileTree} {p : Path} :
    p ∈ realPaths t ↔ ∃ m ∈ t.nodes, m.realPath = p := by
  simp [realPaths]

theorem treeNode_present {t : FileTree} {q : Path} {m : FileNode}
    (h : treeNode t q = some m) : cleanAbs q ∈ realPaths t :=
  mem_realPaths_iff.mpr ⟨m, treeNode_mem h, treeNode_some_realPath h⟩

theorem treeInv_congr {t t' : FileTree} (h : realPaths t' = realPaths t)
    (hi : treeInv t) : treeInv t' := by
  obtain ⟨hr, hp⟩ := hi
  exact ⟨by rw [rootPresent, h]; exact hr,
    fun p hm hne => by rw [h] at hm ⊢; exact hp p hm hne⟩

theorem treeInv_addChildNode {t : FileTree} {fn : FileNode}
    (_hne : fn.realPath ≠ []) (hpar : fn.realPath.dropLast ∈ realPaths t)
    (hi : treeInv t) : treeInv (addChildNode t fn) := by
  obtain ⟨hr, hp⟩ := hi
  constructor
  · rw [rootPresent, realPaths_addChildNode]
    exact List.mem_append.mpr (Or.inl hr)
  · intro p hm hpne
    rw [realPaths_addChildNode] at hm ⊢
    rcases List.mem_append.mp hm with hold | hnew
    · exact List.mem_append.mpr (Or.inl (hp p hold hpne))
    · simp only [List.mem_singleton] at hnew
      subst hnew
      exact List.mem_append.mpr (Or.inl hpar)

theorem setFileNode_treeInv {t : FileTree} {fn : FileNode} {t' : FileTree}
    (h : setFileNode t fn = .ok t') (hn : cleanAbs fn.realPath = fn.realPath)
    (hi : treeInv t) : treeInv t' := by
  rcases setFileNode_cases h with ⟨m, _, ht⟩ | ⟨_, hne, ⟨m2, hm2⟩, ht⟩
  · subst ht
    exact treeInv_congr (realPaths_replaceNode t fn) hi
  · subst ht
    apply treeInv_addChildNode hne _ hi
    have hmem := treeNode_present hm2
    have hdl : cleanAbs fn.realPath.dropLast = fn.realPath.dropLast := by
      apply cleanAbs_of_ok
      apply segOK_of_dropLast
      intro s hs
      rw [← hn] at hs
      exact segOK_cleanAbs s hs
    rwa [hdl] at hmem

theorem addPathsInOrder_treeInv :
    ∀ (l : List Path) (t t' : FileTree), addPathsInOrder t l = .ok t' →
      treeInv t → treeInv t' := by
  intro l
  induction l with
  | nil =>
    intro t t' h hi
    simp only [addPathsInOrder] at h
    injection h with h
    rwa [← h]
  | cons q rest ih =>
    intro t t' h hi
    simp only [addPathsInOrder] at h
    cases hsf : setFileNode t (NewDir q none) with
    | error e => simp only [hsf] at h; exact absurd h (by simp)
    | ok t1 =>
      simp only [hsf] at h
      exact ih t1 t' h (setFileNode_treeInv hsf (by simp [NewDir, cleanAbs_idem]) hi)

theorem addParentPaths_treeInv {t : FileTree} {p : Path} {t' : FileTree}
    (h : addParentPaths t p = .ok t') (hi : treeInv t) : treeInv t' := by
  unfold addParentPaths at h
  cases hpp : ParentPath (cleanAbs p) with
  | error e => simp only [hpp] at h; exact absurd h (by simp)
  | ok parentPath =>
    simp only [hpp] at h
    cases htn : treeNode t parentPath with
    | some m =>
      simp only [htn] at h
      injection h with h
      rwa [← h]
    | none =>
      simp only [htn] at h
      exact addPathsInOrder_treeInv _ t t' h hi

theorem AddFile_treeInv {t : FileTree} {p : Path} {t' : FileTree} {r : Reference}
    (h : AddFile t p = .ok (t', r)) (hi : treeInv t) : treeInv t' := by
  unfold AddFile at h
  cases htn : treeNode t p with
  | some fn =>
    simp only [htn] at h
    by_cases hk : fn.fileType ≠ .TypeReg
    · rw [if_pos hk] at h; exact absurd h (by simp)
    · rw [if_neg hk] at h
      cases href : fn.reference with
      | some r0 =>
        simp only [href] at h
        injection h with h
        injection h with h1 _
        rwa [← h1]
      | none =>
        simp only [href] at h
        simp only [mkFileReference] at h
        injection h with h
        injection h with h1 _
        rw [← h1]
        apply treeInv_congr (realPaths_replaceNode _ _)
        exact treeInv_congr rfl hi
  | none =>
    simp only [htn] at h
    cases hpp : addParentPaths t p with
    | error e => simp only [hpp] at h; exact absurd h (by simp)
    | ok t1 =>
      simp only [hpp] at h
      simp only [mkFileReference] at h
      cases hsf : setFileNode { nodes := t1.nodes, nextId := t1.nextId + 1 }
          (NewFile p (some ⟨t1.nextId, cleanAbs p⟩)) with
      | error e => simp only [hsf] at h; exact absurd h (by simp)
      | ok t3 =>
        simp only [hsf] at h
        injection h with h
        injection h with h1 _
        rw [← h1]
        have hi1 : treeInv t1 := addParentPaths_treeInv hpp hi
        exact setFileNode_treeInv hsf (by simp [NewFile, cleanAbs_idem])
          (treeInv_congr rfl hi1)

theorem AddDir_treeInv {t : FileTree} {p : Path} {t' : FileTree} {r : Reference}
    (h : AddDir t p = .ok (t', r)) (hi : treeInv t) : treeInv t' := by
  unfold AddDir at h
  cases htn : treeNode t p with
  | some fn =>
    simp only [htn] at h
    by_cases hk : fn.fileType ≠ .TypeDir
    · rw [if_pos hk] at h; exact absurd h (by simp)
    · rw [if_neg hk] at h
      cases href : fn.reference with
      | some r0 =>
        simp only [href] at h
        injection h with h
        injection h with h1 _
        rwa [← h1]
      | none =>
        simp only [href] at h
        simp only [mkFileReference] at h
        injection h with h
        injection h with h1 _
        rw [← h1]
        apply treeInv_congr (realPaths_replaceNode _ _)
        exact treeInv_congr rfl hi
  | none =>
    simp only [htn] at h
    cases hpp : addParentPaths t p with
    | error e => simp only [hpp] at h; exact absurd h (by simp)
    | ok t1 =>
      simp only [hpp] at h
      simp only [mkFileReference] at h
      cases hsf : setFileNode { nodes := t1.nodes, nextId := t1.nextId + 1 }
          (NewDir p (some ⟨t1.nextId, cleanAbs p⟩)) with
      | error e => simp only [hsf] at h; exact absurd h (by simp)
      | ok t3 =>
        simp only [hsf] at h
        injection h with h
        injection h with h1 _
        rw [← h1]
        have hi1 : treeInv t1 := addParentPaths_treeInv hpp hi
        exact setFileNode_treeInv hsf (by simp [NewDir, cleanAbs_idem])
          (treeInv_congr rfl hi1)

theorem AddSymLink_treeInv {t : FileTree} {p : Path} {tgt : LinkTarget} {t' : FileTree}
    {r : Reference} (h : AddSymLink t p tgt = .ok (t', r)) (hi : treeInv t) : treeInv t' := by
  unfold AddSymLink at h
  cases htn : treeNode t p with
  | some fn =>
    simp only [htn] at h
    by_cases hk : fn.fileType ≠ .TypeSymlink
    · rw [if_pos hk] at h; exact absurd h (by simp)
    · rw [if_neg hk] at h
      cases href : fn.reference with
      | some r0 =>
        simp only [href] at h
        injection h with h
        injection h with h1 _
        rwa [← h1]
      | none =>
        simp only [href] at h
        simp only [mkFileReference] at h
        injection h with h
        injection h with h1 _
        rw [← h1]
        apply treeInv_congr (realPaths_replaceNode _ _)
        exact treeInv_congr rfl hi
  | none =>
    simp only [htn] at h
    cases hpp : addParentPaths t p with
    | error e => simp only [hpp] at h; exact absurd h (by simp)
    | ok t1 =>
      simp only [hpp] at h
      simp only [mkFileReference] at h
      cases hsf : setFileNode { nodes := t1.nodes, nextId := t1.nextId + 1 }
          (NewSymLink p tgt (some ⟨t1.nextId, cleanAbs p⟩)) with
      | error e => simp only [hsf] at h; exact absurd h (by simp)
      | ok t3 =>
        simp only [hsf] at h
        injection h with h
        injection h with h1 _
        rw [← h1]
        have hi1 : treeInv t1 := addParentPaths_treeInv hpp hi
        exact setFileNode_treeInv hsf (by simp [NewSymLink, cleanAbs_idem])
          (treeInv_congr rfl hi1)

theorem AddHardLink_treeInv {t : FileTree} {p : Path} {tgt : LinkTarget} {t' : FileTree}
    {r : Reference} (h : AddHardLink t p tgt = .ok (t', r)) (hi : treeInv t) : treeInv t' := by
  unfold AddHardLink at h
  cases htn : treeNode t p with
  | some fn =>
    simp only [htn] at h
    by_cases hk : fn.fileType ≠ .TypeHardLink
    · rw [if_pos hk] at h; exact absurd h (by simp)
    · rw [if_neg hk] at h
      cases href : fn.reference with
      | some r0 =>
        simp only [href] at h
        injection h with h
        injection h with h1 _
        rwa [← h1]
      | none =>
        simp only [href] at h
        simp only [mkFileReference] at h
        injection h with h
        injection h with h1 _
        rw [← h1]
        apply treeInv_congr (realPaths_replaceNode _ _)
        exact treeInv_congr rfl hi
  | none =>
    simp only [htn] at h
    cases hpp : addParentPaths t p with
    | error e => simp only [hpp] at h; exact absurd h (by simp)
    | ok t1 =>
      simp only [hpp] at h
      simp only [mkFileReference] at h
      cases hsf : setFileNode { nodes := t1.nodes, nextId := t1.nextId + 1 }
          (NewHardLink p tgt (some ⟨t1.nextId, cleanAbs p⟩)) with
      | error e => simp only [hsf] at h; exact absurd h (by simp)
      | ok t3 =>
        simp only [hsf] at h
        injection h with h
        injection h with h1 _
        rw [← h1]
        have hi1 : treeInv t1 := addParentPaths_treeInv hpp hi
        exact setFileNode_treeInv hsf (by simp [NewHardLink, cleanAbs_idem])
          (treeInv_congr rfl hi1)

theorem removeSubtree_treeInv {t : FileTree} {c : FileNode} {t' : FileTree}
    (h : removeSubtree t c = .ok t') (hi : treeInv t) : treeInv t' := by
  unfold removeSubtree at h
  by_cases hc : c.realPath = []
  · rw [if_pos hc] at h; exact absurd h (by simp)
  · rw [if_neg hc] at h
    injection h with h
    rw [← h]
    obtain ⟨hr, hp⟩ := hi
    constructor
    · obtain ⟨m, hm, hmp⟩ := mem_realPaths_iff.mp hr
      apply mem_realPaths_iff.mpr
      refine ⟨m, List.mem_filter.mpr ⟨hm, ?_⟩, hmp⟩
      simp only [decide_eq_true_eq]
      intro hpre
      rw [List.isPrefixOf_iff_prefix, hmp] at hpre
      exact hc (List.prefix_nil.mp hpre)
    · intro p hm hpne
      obtain ⟨m, hmf, hmp⟩ := mem_realPaths_iff.mp hm
      obtain ⟨hmt, hkeep⟩ := List.mem_filter.mp hmf
      have hpp : p ∈ realPaths t := mem_realPaths_iff.mpr ⟨m, hmt, hmp⟩
      obtain ⟨mq, hmq, hmqp⟩ := mem_realPaths_iff.mp (hp p hpp hpne)
      apply mem_realPaths_iff.mpr
      refine ⟨mq, List.mem_filter.mpr ⟨hmq, ?_⟩, hmqp⟩
      simp only [decide_eq_true_eq]
      intro hpre
      rw [List.isPrefixOf_iff_prefix, hmqp] at hpre
      simp only [decide_eq_true_eq] at hkeep
      apply hkeep
      rw [List.isPrefixOf_iff_prefix, hmp]
      exact hpre.trans (List.dropLast_prefix p)

theorem removeSubtrees_treeInv :
    ∀ (l : List FileNode) (t t' : FileTree), removeSubtrees t l = .ok t' →
      treeInv t → treeInv t' := by
  intro l
  induction l with
  | nil =>
    intro t t' h hi
    simp only [removeSubtrees] at h
    injection h with h
    rwa [← h]
  | cons c rest ih =>
    intro t t' h hi
    simp only [removeSubtrees] at h
    cases hrs : removeSubtree t c with
    | error e => simp only [hrs] at h; exact absurd h (by simp)
    | ok t1 =>
      simp only [hrs] at h
      exact ih t1 t' h (removeSubtree_treeInv hrs hi)

theorem RemovePath_treeInv {t : FileTree} {fuel : Nat} {p : Path} {t' : FileTree}
    (h : RemovePath t fuel p = .ok t') (hi : treeInv t) : treeInv t' := by
  unfold RemovePath at h
  by_cases hr : cleanAbs p = []
  · rw [if_pos hr] at h; exact absurd h (by simp)
  · rw [if_neg hr] at h
    cases hn : node t fuel p { FollowAncestorLinks := true, FollowBasenameLinks := false } with
    | error e => simp only [hn] at h; exact absurd h (by simp)
    | ok pr =>
      simp only [hn] at h
      obtain ⟨q, onode⟩ := pr
      cases onode with
      | none =>
        injection h with h
        rwa [← h]
      | some fn =>
        exact removeSubtree_treeInv h hi

theorem RemoveChildPaths_treeInv {t : FileTree} {fuel : Nat} {p : Path} {t' : FileTree}
    (h : RemoveChildPaths t fuel p = .ok t') (hi : treeInv t) : treeInv t' := by
  unfold RemoveChildPaths at h
  cases hn : node t fuel p { FollowAncestorLinks := true, FollowBasenameLinks := true } with
  | error e => simp only [hn] at h; exact absurd h (by simp)
  | ok pr =>
    simp only [hn] at h
    obtain ⟨q, onode⟩ := pr
    cases onode with
    | none =>
      injection h with h
      rwa [← h]
    | some fn =>
      exact removeSubtrees_treeInv _ t t' h hi

theorem applyOp_treeInv (t : FileTree) (op : FTOp) (hi : treeInv t) :
    treeInv (applyOp t op) := by
  cases op with
  | addFile p =>
    simp only [applyOp]
    cases h : AddFile t p with
    | error e => exact hi
    | ok pr => obtain ⟨t', r⟩ := pr; exact AddFile_treeInv h hi
  | addDir p =>
    simp only [applyOp]
    cases h : AddDir t p with
    | error e => exact hi
    | ok pr => obtain ⟨t', r⟩ := pr; exact AddDir_treeInv h hi
  | addSymLink p tgt =>
    simp only [applyOp]
    cases h : AddSymLink t p tgt with
    | error e => exact hi
    | ok pr => obtain ⟨t', r⟩ := pr; exact AddSymLink_treeInv h hi
  | addHardLink p tgt =>
    simp only [applyOp]
    cases h : AddHardLink t p tgt with
    | error e => exact hi
    | ok pr => obtain ⟨t', r⟩ := pr; exact AddHardLink_treeInv h hi
  | removePath fuel p =>
    simp only [applyOp]
    cases h : RemovePath t fuel p with
    | error e => exact hi
    | ok t' => exact RemovePath_treeInv h hi
  | removeChildPaths fuel p =>
    simp only [applyOp]
    cases h : RemoveChildPaths t fuel p with
    | error e => exact hi
    | ok t' => exact RemoveChildPaths_treeInv h hi

theorem applyOps_treeInv :
    ∀ (ops : List FTOp) (t : FileTree), treeInv t → treeInv (applyOps t ops) := by
  intro ops
  induction ops with
  | nil => intro t hi; exact hi
  | cons op rest ih =>
    intro t hi
    exact ih (applyOp t op) (applyOp_treeInv t op hi)

/-- C5 counterexample: after AddFile("/a") followed by AddFile("/a/b"),
the node "/a/b" exists and the unique node at the parent path "/a" is a
regular file, not a directory (and not an implicit directory either,
since it carries a reference), refuting the claim that the parent of
every non-root node has kind Directory. -/
theorem c5_counterexample :
    (treeNode exTreeFileUnderFile ["a","b"]).isSome = true ∧
    (∀ m ∈ exTreeFileUnderFile.nodes, m.realPath = ["a"] →
      m.fileType = .TypeReg ∧ m.reference.isSome = true) := by
  decide

/-- C5 (amended): after every sequence of mutation operations starting
from a fresh tree, the root is present and every non-root node has a
parent node whose real path is the parent of the node's real path; the
parent's kind however need not be Directory: an explicitly added
non-directory node at the parent path (as in AddFile("/a") before
AddFile("/a/b")) serves as parent while keeping its own kind. -/
theorem c5_amended (ops : List FTOp) :
    rootPresent (applyOps NewFileTree ops) ∧ parentPresent (applyOps NewFileTree ops) :=
  applyOps_treeInv ops NewFileTree ⟨by unfold rootPresent; decide, by unfold parentPresent; decide⟩

/-- C5 witness: the amended invariant evaluated on the file-under-file
sequence: the parent path "/a" of "/a/b" is present. -/
theorem c5_witness :
    (["a","b"] : Path).dropLast ∈ realPaths exTreeFileUnderFile :=
  (c5_amended [.addFile ["a"], .addFile ["a","b"]]).2 ["a","b"] (by decide) (by decide)

/-- C8: a visited upper node whose path is a whiteout marker makes the
merge visitor remove the unwhiteout (sibling) path from the lower tree
and install nothing (the visitor's whole effect is that RemovePath);
concretely, merging an upper tree holding /etc/.wh.passwd onto a lower
tree holding /etc/passwd removes /etc/passwd, keeps /etc, and does not
install the whiteout node. -/
theorem c8_whiteout_merge :
    (∀ (lower upper : FileTree) (fuel : Nat) (n : FileNode),
      IsWhiteout n.realPath = true →
      hasOpaqueDirectory upper fuel n.realPath = false →
      mergeVisit lower upper fuel n = RemovePath lower fuel (UnWhiteoutPath n.realPath)) ∧
    ((merge exLowerWhiteout exUpperWhiteout 100).toOption.map
      (fun m => (treeNode m ["etc","passwd"], (treeNode m ["etc"]).isSome,
        treeNode m ["etc",".wh.passwd"])) = some (none, true, none)) := by
  refine ⟨?_, by decide⟩
  intro lower upper fuel n h1 h2
  simp [mergeVisit, h1, h2]

/-- C8 witness: the visitor equation applied to the concrete whiteout
node of the scenario. -/
theorem c8_witness :
    mergeVisit exLowerWhiteout exUpperWhiteout 100
        ⟨["etc",".wh.passwd"], .TypeReg, none, some ⟨0, ["etc",".wh.passwd"]⟩⟩ =
      RemovePath exLowerWhiteout 100 (UnWhiteoutPath ["etc",".wh.passwd"]) :=
  c8_whiteout_merge.1 exLowerWhiteout exUpperWhiteout 100
    ⟨["etc",".wh.passwd"], .TypeReg, none, some ⟨0, ["etc",".wh.passwd"]⟩⟩
    (by decide) (by decide)

/-- C9: for a non-whiteout upper node the merge visitor installs a copy
of the upper node at the upper node's path; the copy carries the lower
node's reference exactly when the lower tree (after the opaque step)
has a node at that path, that node's kind equals the upper's, the upper
node's reference is absent and the lower node's reference is present;
in every other case the copy carries the upper node's own data
unchanged. -/
theorem c9_merge_reference_inheritance :
    ∀ (lower upper : FileTree) (fuel : Nat) (n : FileNode) (t1 t' : FileTree),
      (if hasOpaqueDirectory upper fuel n.realPath
        then RemoveChildPaths lower fuel n.realPath else .ok lower) = .ok t1 →
      IsWhiteout n.realPath = false →
      cleanAbs n.realPath = n.realPath →
      mergeVisit lower upper fuel n = .ok t' →
      ((∀ orig, treeNode t1 n.realPath = some orig →
          orig.reference.isSome = true → n.reference = none → n.fileType = orig.fileType →
          treeNode t' n.realPath = some { n with reference := orig.reference }) ∧
        (treeNode t1 n.realPath = none → treeNode t' n.realPath = some n) ∧
        (∀ orig, treeNode t1 n.realPath = some orig →
          ¬ (orig.reference.isSome = true ∧ n.reference = none ∧ n.fileType = orig.fileType) →
          treeNode t' n.realPath = some n)) := by
  intro lower upper fuel n t1 t' hstep1 hwh hn hmv
  simp only [mergeVisit, hstep1, hwh] at hmv
  simp only [Bool.false_eq_true, if_false] at hmv
  cases horig : treeNode t1 n.realPath with
  | some orig =>
    simp only [horig] at hmv
    simp only [reduceCtorEq, if_false] at hmv
    refine ⟨?_, ?_, ?_⟩
    · intro orig' horig' hc1 hc2 hc3
      injection horig' with ho
      subst ho
      rw [if_pos ⟨hc1, hc2, hc3⟩] at hmv
      exact setFileNode_ok_lookup hmv (by simpa using hn)
    · intro hnone
      exact absurd hnone (by simp)
    · intro orig' horig' hnc
      injection horig' with ho
      subst ho
      rw [if_neg hnc] at hmv
      exact setFileNode_ok_lookup hmv hn
  | none =>
    simp only [horig] at hmv
    simp only [if_true] at hmv
    cases hpp : addParentPaths t1 n.realPath with
    | error e => simp only [hpp] at hmv; exact absurd hmv (by simp)
    | ok t2 =>
      simp only [hpp] at hmv
      refine ⟨?_, ?_, ?_⟩
      · intro orig' horig'
        exact absurd horig' (by simp)
      · intro _
        exact setFileNode_ok_lookup hmv hn
      · intro orig' horig'
        exact absurd horig' (by simp)

/-- C9 witness: the inheritance case at the concrete scenario: the
upper tree describes "/d" as an implicit directory without reference,
the lower tree has "/d" with a reference, so the installed copy carries
the lower reference. -/
theorem c9_witness :
    treeNode exLowerInherit ["d"] =
      some { realPath := ["d"], fileType := .TypeDir, linkPath := none,
             reference := some ⟨0, ["d"]⟩ } :=
  (c9_merge_reference_inheritance exLowerInherit exUpperInherit 100
      ⟨["d"], .TypeDir, none, none⟩ exLowerInherit exLowerInherit
      (by decide) (by decide) (by decide) (by decide)).1
    ⟨["d"], .TypeDir, none, some ⟨0, ["d"]⟩⟩ (by decide) (by decide) (by decide) (by decide)

end Stereoscope
